import Mathlib

/-!
# Verification of the melon fiber-runtime core

Shallow embedding of the data structures and protocols of the `melon`
repository that the specification's claims are about:

* `melon::container::bounded_queue` (the per-worker ready ring),
  translated from `bounded_queue.h`;
* `fiber::ListOfABAFreeId` (the id list with block splitting),
  translated from `melon/fiber/list_of_abafree_id.h`;
* the execution queue (`fiber::execution_queue*`), the timer cancellation
  protocol and the parking/wakeup protocol.  For these the repository only
  contains the public headers (declarations and their contract comments);
  the corresponding definitions are modelled from the specification and
  marked as such in their doc comments.

The file is organised as: all definitions first, then all theorems.
-/

namespace Melon

/-! ## Definitions: bounded_queue (from `melon/container/bounded_queue.h`)

The C++ class stores items in a raw buffer of `_cap` cells with a start
offset `_start` and a live count `_count`.  We embed the buffer as a total
function `Nat → α` (cell index to stored value); cells outside the live
window hold junk exactly as the raw C++ buffer does.  Machine integers are
embedded as `Nat`; the claims under verification do not concern 32-bit
wrap-around, and under the class invariant (`_start < _cap`,
`_count ≤ _cap`) the index arithmetic below matches the C++ for every
capacity the constructors produce in the intended usages. -/

structure bounded_queue (α : Type) where
  _count : Nat
  _cap : Nat
  _start : Nat
  _items : Nat → α

namespace bounded_queue

/-- `_mod(off, cap)`: the subtract-loop from the source
(`while (off >= cap) off -= cap;`).  The C++ loop does not terminate for
`cap = 0`; the guard `0 < cap` below makes the Lean function total, and
every call site in the class reaches `_mod` only with `cap > 0`. -/
def _mod (off cap : Nat) : Nat :=
  if h : 0 < cap ∧ cap ≤ off then _mod (off - cap) cap else off
termination_by off
decreasing_by
  rcases h with ⟨h1, h2⟩
  omega

/-- `push(item)`: append at the bottom side; returns `true` on success,
`false` (queue unchanged) if the queue is full. -/
def push {α : Type} (q : bounded_queue α) (item : α) : Bool × bounded_queue α :=
  if q._count < q._cap then
    (true, { q with
      _items := fun j => if j = _mod (q._start + q._count) q._cap then item else q._items j,
      _count := q._count + 1 })
  else
    (false, q)

/-- `pop(T* item)`: remove the top-most item and copy it out; returns
`false` (queue unchanged) if the queue is empty. -/
def pop {α : Type} (q : bounded_queue α) : Option α × bounded_queue α :=
  if q._count ≠ 0 then
    (some (q._items q._start),
     { q with _count := q._count - 1, _start := _mod (q._start + 1) q._cap })
  else
    (none, q)

/-- `pop_bottom(T* item)`: remove the bottom-most item and copy it out;
returns `false` (queue unchanged) if the queue is empty. -/
def pop_bottom {α : Type} (q : bounded_queue α) : Option α × bounded_queue α :=
  if q._count ≠ 0 then
    (some (q._items (_mod (q._start + (q._count - 1)) q._cap)),
     { q with _count := q._count - 1 })
  else
    (none, q)

/-- `empty()` -/
def emptyq {α : Type} (q : bounded_queue α) : Bool := q._count == 0

/-- `full()` -/
def full {α : Type} (q : bounded_queue α) : Bool := q._cap == q._count

/-- `size()` -/
def size {α : Type} (q : bounded_queue α) : Nat := q._count

/-- `capacity()` -/
def capacity {α : Type} (q : bounded_queue α) : Nat := q._cap

/-- Abstraction: the sequence of live items from the top side
(`top(0), top(1), …`), i.e. oldest (pop side) first, newest (push side)
last. -/
def toList {α : Type} (q : bounded_queue α) : List α :=
  (List.range q._count).map (fun i => q._items (_mod (q._start + i) q._cap))

/-- Push a whole list (bottom side), dropping the success flags. -/
def pushAll {α : Type} (q : bounded_queue α) (xs : List α) : bounded_queue α :=
  xs.foldl (fun q x => (push q x).2) q

/-- Pop `n` items from the top side, collecting them in order. -/
def popN {α : Type} : Nat → bounded_queue α → List α
  | 0, _ => []
  | n + 1, q =>
    match pop q with
    | (some x, q') => x :: popN n q'
    | (none, _) => []

end bounded_queue

/-- A worker's queues: its bounded ready ring plus the group overflow deque.

Modelled from the spec: the worker/scheduling-group code that owns the ring
and the group overflow deque is not under `src/`; only the ring itself
(`bounded_queue`) is.  The spec says: "`push_local(t)`: append at the
worker's local tail; if full, push into the group overflow deque." -/
structure WorkerQueues (α : Type) where
  ring : bounded_queue α
  overflow : List α

/-- Modelled from the spec: `push_local(t)` routes the task into the ring
when the ring push succeeds and into the group overflow deque otherwise. -/
def push_local {α : Type} (w : WorkerQueues α) (t : α) : WorkerQueues α :=
  let r := w.ring.push t
  if r.1 then { w with ring := r.2 } else { w with overflow := w.overflow ++ [t] }

/-! ## Definitions: execution queue

The repository contains only the public header of the execution queue
(`melon/fiber/execution_queue.h`): the declarations of
`execution_queue_start/execute/stop/join/cancel`, `TaskIteratorBase`,
`TaskOptions.high_priority` and their contract comments.  The
implementation (`execution_queue_inl.h` / `execution_queue.cc`) is not
under `src/`.  The model below is therefore modelled from the spec
(§4.7 "Execution Queue", §5 "Ordering guarantees") and from the header's
contract comments:

* producers link tasks into per-priority FIFO lists
  ("high-priority tasks in the FIFO order but before all pending
  normal-priority tasks");
* the unique consumer takes a batch at a batch boundary — high-priority
  tasks first — and presents the batch's tasks to `on_batch` one by one
  ("A high-priority submission is dispatched before any pending normal
  tasks once the consumer reaches the next batch boundary (not
  mid-batch)");
* `stop` enqueues a sentinel; when every pending task has been executed
  the consumer calls `on_batch` once with `is_queue_stopped() = true`,
  and all later `execute` calls fail immediately;
* `cancel(handle)` returns 0 (task dropped before dispatch),
  1 (dispatch already began) or -1 (already executed / stale handle).

Submission handles are modelled as the ghost ids assigned by `submit`;
a handle `≥ nextId` is a stale/invalid handle. -/

/-- Task priority (`TaskOptions::high_priority`). -/
inductive Pri
  | normal
  | high
deriving DecidableEq

/-- A submitted task: ghost id plus priority. -/
structure EQTask where
  id : Nat
  pri : Pri
deriving DecidableEq

/-- Lifecycle of a task node, as observed by `execution_queue_cancel`. -/
inductive NodeStatus
  | pending
  | executing
  | executed
  | cancelled
deriving DecidableEq

/-- State of one execution queue.  `submitted` is a ghost trace of every
accepted submission in submission order; `delivered` is the order in which
payloads are presented to `on_batch`. -/
structure EQState where
  pendingHigh : List EQTask
  pendingNormal : List EQTask
  curBatch : List EQTask
  executing : Option EQTask
  status : Nat → NodeStatus
  stopped : Bool
  stopPending : Bool
  stopDelivered : Nat
  delivered : List EQTask
  submitted : List EQTask
  nextId : Nat

/-- Modelled from the spec: `execution_queue_execute`.  After `stop` every
call fails immediately (nonzero errno, nothing enqueued); otherwise the
task is appended to the FIFO list of its priority. -/
def eqSubmit (s : EQState) (pr : Pri) : Int × EQState :=
  if s.stopped then (22, s)
  else
    let t : EQTask := ⟨s.nextId, pr⟩
    (0, { s with
      pendingHigh := if pr = .high then s.pendingHigh ++ [t] else s.pendingHigh,
      pendingNormal := if pr = .normal then s.pendingNormal ++ [t] else s.pendingNormal,
      status := fun i => if i = s.nextId then .pending else s.status i,
      submitted := s.submitted ++ [t],
      nextId := s.nextId + 1 })

/-- Modelled from the spec: `execution_queue_stop` enqueues the sentinel
"stopped" task and marks the queue stopped. -/
def eqStop (s : EQState) : EQState :=
  if s.stopped then s else { s with stopped := true, stopPending := true }

/-- Modelled from the spec: the consumer reaches a batch boundary.  It
switches to the pending high-priority tasks (FIFO) if any, else takes the
pending normal tasks, else — when nothing at all is pending — processes
the stop sentinel, invoking `on_batch` with `is_queue_stopped() = true`.
Mid-batch (or mid-dispatch) this is a no-op: the consumer finishes the
batch currently being iterated first. -/
def eqTakeBatch (s : EQState) : EQState :=
  if s.curBatch = [] ∧ s.executing = none then
    if s.pendingHigh ≠ [] then
      { s with curBatch := s.pendingHigh, pendingHigh := [] }
    else if s.pendingNormal ≠ [] then
      { s with curBatch := s.pendingNormal, pendingNormal := [] }
    else if s.stopPending then
      { s with stopPending := false, stopDelivered := s.stopDelivered + 1 }
    else s
  else s

/-- Modelled from the spec: the consumer moves to the next task of the
current batch.  A node whose cancellation succeeded is skipped (its
payload is never presented to `on_batch`); otherwise its dispatch begins
(`cancel` from now on returns EXECUTING). -/
def eqBeginDispatch (s : EQState) : EQState :=
  match s.executing, s.curBatch with
  | none, h :: t =>
    if s.status h.id = .cancelled then { s with curBatch := t }
    else
      { s with
        curBatch := t,
        executing := some h,
        status := fun i => if i = h.id then .executing else s.status i }
  | _, _ => s

/-- Modelled from the spec: the consumer finishes presenting the task
whose dispatch began; the payload has been observed by `on_batch`. -/
def eqEndDispatch (s : EQState) : EQState :=
  match s.executing with
  | some t =>
    { s with
      executing := none,
      delivered := s.delivered ++ [t],
      status := fun i => if i = t.id then .executed else s.status i }
  | none => s

/-- Modelled from the spec and the header contract of
`execution_queue_cancel`: returns 0 on success (the node is marked
cancelled and will be skipped), 1 if the task is executing, -1 if the
task was already executed / already cancelled or the handle is stale. -/
def execution_queue_cancel (s : EQState) (h : Nat) : Int × EQState :=
  if s.nextId ≤ h then (-1, s)
  else
    match s.status h with
    | .pending => (0, { s with status := fun i => if i = h then .cancelled else s.status i })
    | .executing => (1, s)
    | .executed => (-1, s)
    | .cancelled => (-1, s)

/-- Events of the execution-queue model: producer submissions, `stop`,
`cancel`, and the consumer's batch-boundary and dispatch steps. -/
inductive EQEvent
  | submit (pr : Pri)
  | stop
  | takeBatch
  | beginDispatch
  | endDispatch
  | cancel (h : Nat)

/-- One step of the execution-queue model. -/
def EQStep (s : EQState) : EQEvent → EQState
  | .submit pr => (eqSubmit s pr).2
  | .stop => eqStop s
  | .takeBatch => eqTakeBatch s
  | .beginDispatch => eqBeginDispatch s
  | .endDispatch => eqEndDispatch s
  | .cancel h => (execution_queue_cancel s h).2

/-- The freshly started queue (`execution_queue_start`). -/
def EQInit : EQState :=
  ⟨[], [], [], none, fun _ => .pending, false, false, 0, [], [], 0⟩

/-- Run the model from an arbitrary state. -/
def EQRunFrom (s : EQState) (es : List EQEvent) : EQState :=
  es.foldl EQStep s

/-- Run the model from the freshly started queue. -/
def EQRun (es : List EQEvent) : EQState :=
  EQRunFrom EQInit es

/-- Weighted amount of work the consumer still has to do; each consumer
step strictly decreases it. -/
def EQMeasure (s : EQState) : Nat :=
  3 * (s.pendingHigh.length + s.pendingNormal.length) + 2 * s.curBatch.length +
    (if s.executing.isSome then 1 else 0) + (if s.stopPending then 1 else 0)

/-- Let the consumer run until it has nothing left to do. -/
def EQDrain (s : EQState) : EQState :=
  if s.executing.isSome then EQDrain (eqEndDispatch s)
  else if s.curBatch ≠ [] then EQDrain (eqBeginDispatch s)
  else if s.pendingHigh ≠ [] ∨ s.pendingNormal ≠ [] then EQDrain (eqTakeBatch s)
  else if s.stopPending then EQDrain (eqTakeBatch s)
  else s
termination_by EQMeasure s
decreasing_by
  · rename_i hx
    rcases hs : s.executing with _ | t
    · rw [hs] at hx
      simp at hx
    · simp [EQMeasure, eqEndDispatch, hs] <;> omega
  · rename_i hx hb
    rcases hs : s.executing with _ | t
    · rcases hc : s.curBatch with _ | ⟨h, rest⟩
      · rw [hc] at hb
        simp at hb
      · by_cases hcan : s.status h.id = NodeStatus.cancelled
        all_goals simp [EQMeasure, eqBeginDispatch, hs, hc, hcan] <;> omega
    · rw [hs] at hx
      simp at hx
  · rename_i hx hb hp
    have hbe : s.curBatch = [] := by
      by_contra hne
      exact hb hne
    have hxe : s.executing = none := by
      rcases hs : s.executing with _ | t
      · rfl
      · rw [hs] at hx
        simp at hx
    unfold eqTakeBatch
    rw [if_pos ⟨hbe, hxe⟩]
    rcases hp with hp | hp
    · rw [if_pos hp]
      have hlen : s.pendingHigh.length ≠ 0 := by simpa using hp
      simp [EQMeasure, hbe] <;> omega
    · by_cases hph : s.pendingHigh ≠ []
      · rw [if_pos hph]
        have hlen : s.pendingHigh.length ≠ 0 := by simpa using hph
        simp [EQMeasure, hbe] <;> omega
      · rw [if_neg hph, if_pos hp]
        have hlen : s.pendingNormal.length ≠ 0 := by simpa using hp
        simp [EQMeasure, hbe] <;> omega
  · rename_i hx hb hp hsp
    have hbe : s.curBatch = [] := by
      by_contra hne
      exact hb hne
    have hxe : s.executing = none := by
      rcases hs : s.executing with _ | t
      · rfl
      · rw [hs] at hx
        simp at hx
    push_neg at hp
    unfold eqTakeBatch
    rw [if_pos ⟨hbe, hxe⟩, if_neg (by simpa using hp.1), if_neg (by simpa using hp.2),
      if_pos hsp]
    simp [EQMeasure, hsp] <;> omega

/-! ## Definitions: timer cancellation protocol

No timer-wheel source is under `src/`; the protocol below is modelled from
the spec (§4.5): "Cancel races with fire: the cancellation state is CAS'd
from NOT_CANCELED to CANCELED; if the fire path has already CAS'd to
FIRED, cancellation returns ALREADY_FIRED and the callback runs." -/

/-- Cancellation state of one timer entry. -/
inductive TimerState
  | notCanceled
  | canceled
  | fired
deriving DecidableEq

/-- Result of `timer_cancel` (spec: `{OK, ALREADY_FIRED, ALREADY_CANCELED}`). -/
inductive CancelResult
  | ok
  | alreadyFired
  | alreadyCanceled
deriving DecidableEq

/-- One timer entry: its cancellation state and how many times its
callback has run. -/
structure Timer where
  state : TimerState
  runs : Nat
deriving DecidableEq

/-- Modelled from the spec: the fire path CASes NOT_CANCELED → FIRED and
runs the callback exactly when the CAS succeeds. -/
def timerFire (t : Timer) : Timer :=
  if t.state = TimerState.notCanceled then
    { state := TimerState.fired, runs := t.runs + 1 }
  else t

/-- Modelled from the spec: `timer_cancel` CASes NOT_CANCELED → CANCELED;
if the fire path already CAS'd to FIRED it returns ALREADY_FIRED. -/
def timer_cancel (t : Timer) : CancelResult × Timer :=
  match t.state with
  | TimerState.notCanceled => (CancelResult.ok, { t with state := TimerState.canceled })
  | TimerState.fired => (CancelResult.alreadyFired, t)
  | TimerState.canceled => (CancelResult.alreadyCanceled, t)

/-- Events on one timer entry. -/
inductive TimerEvent
  | fire
  | cancel
deriving DecidableEq

/-- One step of the timer protocol. -/
def timerStep (t : Timer) : TimerEvent → Timer
  | TimerEvent.fire => timerFire t
  | TimerEvent.cancel => (timer_cancel t).2

/-- A fresh timer entry. -/
def timerInit : Timer := ⟨TimerState.notCanceled, 0⟩

/-- Run the timer protocol from an arbitrary entry state. -/
def timerRunFrom (t : Timer) (es : List TimerEvent) : Timer :=
  es.foldl timerStep t

/-- Run the timer protocol from a fresh entry. -/
def timerRun (es : List TimerEvent) : Timer :=
  timerRunFrom timerInit es

/-! ## Definitions: parking/wakeup protocol

No scheduling-group source is under `src/`; the protocol below is modelled
from the spec (§4.4): a worker publishes itself in the parking array with
a snapshot of the group's work epoch, rescans once, and only then waits;
a producer publishes the task, bumps the epoch, and wakes one parked
worker if the parking array is non-empty. -/

/-- Shared state of one producer/worker parking-wake pair. -/
structure ParkState where
  queueTask : Bool
  epoch : Nat
  parked : Bool
  workerWoken : Bool
  snapshot : Nat
  asleep : Bool
  observed : Bool
deriving DecidableEq

/-- The atomic steps of the worker (left) and the producer (right). -/
inductive PWStep
  | wPublish
  | wRescan
  | wSleep
  | pPublish
  | pBump
  | pWake
deriving DecidableEq

/-- Modelled from the spec: one atomic step of the parking protocol.
`wPublish` publishes the worker in the parking array with an epoch
snapshot; `wRescan` is the final rescan (the worker skips the sleep when
it sees the task or a bumped epoch); `wSleep` commits to sleeping unless
the rescan observed work or a wake already arrived; `pPublish` publishes
the task; `pBump` bumps the work epoch; `pWake` wakes one parked worker
when the parking array is non-empty. -/
def pwStep (s : ParkState) : PWStep → ParkState
  | PWStep.wPublish => { s with parked := true, snapshot := s.epoch }
  | PWStep.wRescan =>
    if s.queueTask ∨ s.epoch ≠ s.snapshot then { s with observed := true } else s
  | PWStep.wSleep =>
    if ¬ s.observed ∧ ¬ s.workerWoken then { s with asleep := true } else s
  | PWStep.pPublish => { s with queueTask := true }
  | PWStep.pBump => { s with epoch := s.epoch + 1 }
  | PWStep.pWake => if s.parked then { s with workerWoken := true } else s

/-- The worker's program: publish, final rescan, sleep. -/
def workerProg : List PWStep := [PWStep.wPublish, PWStep.wRescan, PWStep.wSleep]

/-- The producer's program: publish the task, bump the epoch, wake a
parked worker. -/
def producerProg : List PWStep := [PWStep.pPublish, PWStep.pBump, PWStep.pWake]

/-- All interleavings of two sequences of atomic steps; the fuel argument
makes the recursion structural (any fuel at least the total length gives
the full set). -/
def interleavingsAux {α : Type} : Nat → List α → List α → List (List α)
  | 0, xs, ys => [xs ++ ys]
  | _ + 1, [], ys => [ys]
  | _ + 1, x :: xs, [] => [x :: xs]
  | n + 1, x :: xs, y :: ys =>
    ((interleavingsAux n xs (y :: ys)).map (fun l => x :: l)) ++
      ((interleavingsAux n (x :: xs) ys).map (fun l => y :: l))

/-- All interleavings of two sequences of atomic steps. -/
def interleavings {α : Type} (xs ys : List α) : List (List α) :=
  interleavingsAux (xs.length + ys.length) xs ys

/-- Initial shared state: no task, nobody parked. -/
def pwInit : ParkState := ⟨false, 0, false, false, 0, false, false⟩

/-- All tasks accepted but not yet delivered or dropped: the two pending
lists, the current batch and the task mid-dispatch. -/
def EQqueued (s : EQState) : List EQTask :=
  s.pendingHigh ++ s.pendingNormal ++ s.curBatch ++ s.executing.toList

/-- The tasks of priority `p` among delivered, mid-dispatch, current batch
and pending, in the order the consumer will reach them. -/
def EQorder (s : EQState) (p : Pri) : List EQTask :=
  s.delivered.filter (fun t => t.pri == p) ++
    s.executing.toList.filter (fun t => t.pri == p) ++
    s.curBatch.filter (fun t => t.pri == p) ++
    (if p = Pri.high then s.pendingHigh else s.pendingNormal)

/-- Invariant of reachable execution-queue states. -/
structure EQInv (s : EQState) : Prop where
  highPure : ∀ t ∈ s.pendingHigh, t.pri = Pri.high
  normalPure : ∀ t ∈ s.pendingNormal, t.pri = Pri.normal
  queuedLt : ∀ t ∈ EQqueued s, t.id < s.nextId
  deliveredLt : ∀ t ∈ s.delivered, t.id < s.nextId
  nodup : ((EQqueued s).map EQTask.id).Nodup
  statusQueued : ∀ t ∈ s.pendingHigh ++ s.pendingNormal ++ s.curBatch,
      s.status t.id = NodeStatus.pending ∨ s.status t.id = NodeStatus.cancelled
  statusExec : ∀ t, s.executing = some t → s.status t.id = NodeStatus.executing
  statusDelivered : ∀ t ∈ s.delivered, s.status t.id = NodeStatus.executed
  stopIdle : s.stopped = false → s.stopDelivered = 0 ∧ s.stopPending = false
  stopOnce : s.stopped = true → s.stopDelivered + (if s.stopPending then 1 else 0) = 1
  orderp : ∀ p : Pri, (EQorder s p).Sublist (s.submitted.filter (fun t => t.pri == p))

/-- A concrete event sequence: two submissions, a stop, and a full
consumer round; used to instantiate theorems at a concrete input. -/
def sampleEvents : List EQEvent :=
  [EQEvent.submit Pri.normal, EQEvent.submit Pri.high, EQEvent.stop,
   EQEvent.takeBatch, EQEvent.beginDispatch, EQEvent.endDispatch,
   EQEvent.takeBatch, EQEvent.beginDispatch, EQEvent.endDispatch,
   EQEvent.takeBatch]

/-! ## Definitions: ListOfABAFreeId (from `melon/fiber/list_of_abafree_id.h`)

The C++ container stores ids in a singly linked chain of blocks of
`IdTraits::BLOCK_SIZE` slots starting at `_head_block`; `_cur_block` and
`_cur_index` form a cursor that `forward_index()` advances slot by slot,
moving to `_cur_block->next` at a block's end and wrapping to the head
block at the chain's end.  We embed the storage as the flat list `items`
of all slots in chain order; the cursor becomes the flat index
`cur = (index of _cur_block in the chain) * BLOCK_SIZE + _cur_index`, and
`forward_index()` becomes `cur := (cur + 1) % items.length`.

Under this flattening, `add`'s block insertion is exactly an insertion of
`BLOCK_SIZE` fresh `ID_INIT` slots at flat position `cur`: the C++ copies
`_cur_block->ids[_cur_index ..]` into the same offsets of the new block
(spliced in right after `_cur_block`) and clears both the copied tail of
`_cur_block` and the head of the new block — i.e. the *contents* before
`cur` stay in place, `BLOCK_SIZE` `ID_INIT` slots appear at `cur`, and the
contents from `cur` on are shifted up by `BLOCK_SIZE`.

The saved probe positions (`saved_pos`) are *pointers* into physical
blocks, so they follow the blocks, not the contents.  With
`B = BLOCK_SIZE * (cur / BLOCK_SIZE)` the flat start of `_cur_block`, a
pointer at old flat position `p` is at flat position `p + BLOCK_SIZE`
after the insertion when it lies in a block strictly after `_cur_block`
(`B + BLOCK_SIZE ≤ p`), and stays at `p` otherwise.  In particular a
pointer into `_cur_block` at an index `≥ _cur_index` (`cur ≤ p < B +
BLOCK_SIZE`) keeps its flat position but now reads `ID_INIT`: its
contents were moved into the new block.  The cursor writes of the scatter
phase land at flat `cur`, `cur + 2` and `cur + 3` (both inside the
inserted `ID_INIT` region), because `forward_index()` from `_cur_block`
steps into the freshly chained new block. -/

structure ListOfABAFreeId (Id : Type) where
  items : List Id
  cur : Nat
  _nblock : Nat

/-- `*pos == IdTraits::ID_INIT || !IdTraits::exists(*pos)`: the slot may
be reused. -/
def slotFree {Id : Type} [DecidableEq Id] (ex : Id → Bool) (idInit : Id) (v : Id) : Prop :=
  v = idInit ∨ ex v = false

instance {Id : Type} [DecidableEq Id] (ex : Id → Bool) (idInit v : Id) :
    Decidable (slotFree ex idInit v) := by
  unfold slotFree
  infer_instance

/-- Insert `bs` `idInit` slots at flat position `c`: the flattened effect
of allocating the new block and splicing it after `_cur_block` (see the
section comment). -/
def spliceAt {Id : Type} (c bs : Nat) (idInit : Id) (l : List Id) : List Id :=
  l.take c ++ List.replicate bs idInit ++ l.drop c

/-- The "scatter the conflict identifiers" block of `add`, operating on
the spliced flat storage `l1`: `c4` is the cursor (the first slot of the
inserted `ID_INIT` region), `q1 q2 q3` are the flat positions of the
pointers `saved_pos[1..3]` after the insertion (see the section comment),
and `c6 = c4 + 2`, `c7 = c4 + 3` are the cursor positions reached by the
`forward_index()` calls between the writes. -/
def ListOfABAFreeId.scatter {Id : Type} (idInit id : Id) (c4 q1 q2 q3 c6 c7 : Nat)
    (l1 : List Id) : List Id :=
  let l2 := l1.set c4 (l1.getD q2 idInit)
  let l3 := l2.set q2 (l2.getD q1 idInit)
  let l4 := l3.set q1 idInit
  let l5 := l4.set c6 (l4.getD q3 idInit)
  let l6 := l5.set q3 idInit
  l6.set c7 id

/-- `ListOfABAFreeId::add`, flattened (see the section comment).  `ex` is
`IdTraits::exists`, `idInit` is `ID_INIT`, `bs` is `BLOCK_SIZE`, `maxEntries`
is `MAX_ENTRIES`.  `allocOk` models whether `new (std::nothrow) IdBlock`
succeeds.  Returns `(0 | EAGAIN | ENOMEM, new state)` with `EAGAIN = 11`,
`ENOMEM = 12`. -/
def ListOfABAFreeId.add {Id : Type} [DecidableEq Id] (ex : Id → Bool) (idInit : Id)
    (bs maxEntries : Nat) (allocOk : Bool) (s : ListOfABAFreeId Id) (id : Id) :
    Nat × ListOfABAFreeId Id :=
  let n := s.items.length
  let p0 := s.cur
  let c1 := (p0 + 1) % n
  if slotFree ex idInit (s.items.getD p0 idInit) then
    (0, ⟨s.items.set p0 id, c1, s._nblock⟩)
  else
    let p1 := c1
    let c2 := (c1 + 1) % n
    if slotFree ex idInit (s.items.getD p1 idInit) then
      (0, ⟨s.items.set p1 id, c2, s._nblock⟩)
    else
      let p2 := c2
      let c3 := (c2 + 1) % n
      if slotFree ex idInit (s.items.getD p2 idInit) then
        (0, ⟨s.items.set p2 id, c3, s._nblock⟩)
      else
        let p3 := c3
        let c4 := (c3 + 1) % n
        if slotFree ex idInit (s.items.getD p3 idInit) then
          (0, ⟨s.items.set p3 id, c4, s._nblock⟩)
        else
          if s._nblock * bs > maxEntries then
            (11, ⟨s.items, c4, s._nblock⟩)
          else if allocOk = false then
            (12, ⟨s.items, c4, s._nblock⟩)
          else
            let l1 := spliceAt c4 bs idInit s.items
            let n2 := n + bs
            let t := bs * (c4 / bs) + bs
            let q1 := if t ≤ p1 then p1 + bs else p1
            let q2 := if t ≤ p2 then p2 + bs else p2
            let q3 := if t ≤ p3 then p3 + bs else p3
            let c5 := (c4 + 1) % n2
            let c6 := (c5 + 1) % n2
            let c7 := (c6 + 1) % n2
            let c8 := (c7 + 1) % n2
            (0, ⟨scatter idInit id c4 q1 q2 q3 c6 c7 l1, c8, s._nblock + 1⟩)

/-- `ListOfABAFreeId::apply` visits every stored id that is not `ID_INIT`
and still exists; its visit set is determined by the stored slots. -/
def ListOfABAFreeId.applyList {Id : Type} [DecidableEq Id] (ex : Id → Bool) (idInit : Id)
    (s : ListOfABAFreeId Id) : List Id :=
  s.items.filter (fun v => ¬ (v = idInit) ∧ ex v = true)

/-- Well-formedness maintained by the constructor and `add`: the flat
storage is `_nblock` blocks of `BLOCK_SIZE` slots, the chain is nonempty,
and the cursor is in range. -/
def ListOfABAFreeId.wf {Id : Type} (bs : Nat) (s : ListOfABAFreeId Id) : Prop :=
  s.items.length = s._nblock * bs ∧ s.cur < s.items.length ∧ 1 ≤ s._nblock

/-- The four probed slots (the cursor and the three positions after it,
in walk order) are all occupied by still-valid identifiers. -/
def ListOfABAFreeId.probedOccupied {Id : Type} [DecidableEq Id] (ex : Id → Bool)
    (idInit : Id) (s : ListOfABAFreeId Id) : Prop :=
  (¬ slotFree ex idInit (s.items.getD s.cur idInit)) ∧
  (¬ slotFree ex idInit (s.items.getD ((s.cur + 1) % s.items.length) idInit)) ∧
  (¬ slotFree ex idInit (s.items.getD ((s.cur + 2) % s.items.length) idInit)) ∧
  (¬ slotFree ex idInit (s.items.getD ((s.cur + 3) % s.items.length) idInit))

/-- Postcondition of `ListOfABAFreeId.add`: the return-value trichotomy,
the exact conditions for EAGAIN and ENOMEM (with the stored slots left
unchanged in both cases), and preservation of every stored identifier
that is not `ID_INIT` and still exists — hence of `apply`'s visit set. -/
def ListOfABAFreeId.addPost {Id : Type} [DecidableEq Id] (ex : Id → Bool) (idInit : Id)
    (bs maxEntries : Nat) (allocOk : Bool) (s : ListOfABAFreeId Id) (id : Id) : Prop :=
  ((add ex idInit bs maxEntries allocOk s id).1 = 0 ∨
   (add ex idInit bs maxEntries allocOk s id).1 = 11 ∨
   (add ex idInit bs maxEntries allocOk s id).1 = 12)
  ∧ ((add ex idInit bs maxEntries allocOk s id).1 = 11 ↔
      (probedOccupied ex idInit s ∧ s._nblock * bs > maxEntries))
  ∧ ((add ex idInit bs maxEntries allocOk s id).1 = 11 →
      ((add ex idInit bs maxEntries allocOk s id).2).items = s.items)
  ∧ ((add ex idInit bs maxEntries allocOk s id).1 = 12 ↔
      (probedOccupied ex idInit s ∧ ¬ (s._nblock * bs > maxEntries) ∧ allocOk = false))
  ∧ ((add ex idInit bs maxEntries allocOk s id).1 = 12 →
      ((add ex idInit bs maxEntries allocOk s id).2).items = s.items)
  ∧ (∀ v : Id, v ≠ idInit → ex v = true → v ∈ s.items →
      v ∈ ((add ex idInit bs maxEntries allocOk s id).2).items)
  ∧ (∀ v : Id, v ∈ applyList ex idInit s →
      v ∈ applyList ex idInit (add ex idInit bs maxEntries allocOk s id).2)

/-- A concrete empty ring of capacity 1, used to instantiate theorems with
hypotheses at a concrete input. -/
def sampleRing : bounded_queue Nat := ⟨0, 1, 0, fun _ => 7⟩

/-- A concrete empty ring of capacity 3, used to instantiate theorems with
hypotheses at a concrete input. -/
def sampleRing3 : bounded_queue Nat := ⟨0, 3, 0, fun _ => 0⟩

/-! ## Theorems: execution queue invariants -/

theorem EQInv_init : EQInv EQInit := by
  constructor <;> simp [EQInit, EQqueued, EQorder]

theorem nodup_perm_cons {l l' : List Nat} {n : Nat} (hp : l'.Perm (n :: l))
    (h : l.Nodup) (hn : n ∉ l) : l'.Nodup :=
  hp.nodup_iff.mpr (List.nodup_cons.mpr ⟨hn, h⟩)

theorem EQInv_submit (s : EQState) (pr : Pri) (hinv : EQInv s) :
    EQInv (eqSubmit s pr).2 := by
  by_cases hstop : s.stopped
  · unfold eqSubmit
    rw [if_pos hstop]
    exact hinv
  · have hqlt := hinv.queuedLt
    have hfresh : s.nextId ∉ (EQqueued s).map EQTask.id := by
      intro hmem
      obtain ⟨t, ht, hid⟩ := List.mem_map.mp hmem
      have := hqlt t ht
      omega
    rcases pr with _ | _
    · have hstate : (eqSubmit s Pri.normal).2 = { s with
          pendingNormal := s.pendingNormal ++ [⟨s.nextId, Pri.normal⟩],
          status := fun i => if i = s.nextId then NodeStatus.pending else s.status i,
          submitted := s.submitted ++ [⟨s.nextId, Pri.normal⟩],
          nextId := s.nextId + 1 } := by
        unfold eqSubmit
        rw [if_neg hstop]
        simp
      rw [hstate]
      refine ⟨?_, ?_, ?_, ?_, ?_, ?_, ?_, ?_, ?_, ?_, ?_⟩ <;> try dsimp only
      ·
        intro t ht
        exact hinv.highPure t ht
      ·
        intro t ht
        rcases List.mem_append.mp ht with h | h
        · exact hinv.normalPure t h
        · rw [List.mem_singleton.mp h]
      ·
        intro t ht
        have hm : t ∈ EQqueued s ∨ t = ⟨s.nextId, Pri.normal⟩ := by
          revert ht
          simp [EQqueued, List.mem_append]
          tauto
        rcases hm with hm | hm
        · have := hqlt t hm
          omega
        · rw [hm]
          exact Nat.lt_succ_self s.nextId
      ·
        intro t ht
        have := hinv.deliveredLt t ht
        omega
      ·
        have hnodup := hinv.nodup
        simp only [EQqueued, List.map_append, List.append_assoc, List.map_cons,
          List.map_nil, List.singleton_append] at hnodup hfresh ⊢
        refine nodup_perm_cons (n := s.nextId)
          (l := s.pendingHigh.map EQTask.id ++ (s.pendingNormal.map EQTask.id ++
            (s.curBatch.map EQTask.id ++ s.executing.toList.map EQTask.id))) ?_ ?_ ?_
        · have h1 : (s.pendingNormal.map EQTask.id ++
              (s.nextId :: (s.curBatch.map EQTask.id ++ s.executing.toList.map EQTask.id))).Perm
              (s.nextId :: (s.pendingNormal.map EQTask.id ++
                (s.curBatch.map EQTask.id ++ s.executing.toList.map EQTask.id))) :=
            List.perm_middle
          have h2 := List.Perm.append_left (s.pendingHigh.map EQTask.id) h1
          exact h2.trans List.perm_middle
        · exact hnodup
        · exact hfresh
      ·
        intro t ht
        have hm : (t ∈ s.pendingHigh ++ s.pendingNormal ++ s.curBatch) ∨
            t = ⟨s.nextId, Pri.normal⟩ := by
          revert ht
          simp [List.mem_append]
          tauto
        rcases hm with hm | hm
        · have hlt : t.id < s.nextId := by
            refine hqlt t ?_
            simp only [EQqueued, List.append_assoc, List.mem_append]
            simp only [List.mem_append] at hm
            tauto
          rw [if_neg (by omega)]
          exact hinv.statusQueued t hm
        · rw [hm]
          rw [if_pos rfl]
          exact Or.inl rfl
      ·
        intro t ht
        have hlt : t.id < s.nextId := by
          refine hqlt t ?_
          simp [EQqueued, ht]
        rw [if_neg (by omega)]
        exact hinv.statusExec t ht
      ·
        intro t ht
        have hlt := hinv.deliveredLt t ht
        rw [if_neg (by omega)]
        exact hinv.statusDelivered t ht
      ·
        intro h
        exact hinv.stopIdle h
      ·
        intro h
        exact hinv.stopOnce h
      ·
        intro p
        rcases p with _ | _
        · have h0 := hinv.orderp Pri.normal
          simp only [EQorder] at h0 ⊢
          rw [if_neg (by decide : ¬(Pri.normal = Pri.high))] at h0 ⊢
          simp only [List.filter_append, List.filter_cons, List.filter_nil,
            beq_self_eq_true, if_true]
          try simp only [← List.append_assoc]
          refine List.Sublist.append ?_ (List.Sublist.refl _)
          simpa only [← List.append_assoc] using h0
        · have h0 := hinv.orderp Pri.high
          simp only [EQorder] at h0 ⊢
          simp only [if_true] at h0 ⊢
          simp only [List.filter_append, List.filter_cons, List.filter_nil,
            show (Pri.normal == Pri.high) = false from rfl]
          simpa using h0
    · have hstate : (eqSubmit s Pri.high).2 = { s with
          pendingHigh := s.pendingHigh ++ [⟨s.nextId, Pri.high⟩],
          status := fun i => if i = s.nextId then NodeStatus.pending else s.status i,
          submitted := s.submitted ++ [⟨s.nextId, Pri.high⟩],
          nextId := s.nextId + 1 } := by
        unfold eqSubmit
        rw [if_neg hstop]
        simp
      rw [hstate]
      refine ⟨?_, ?_, ?_, ?_, ?_, ?_, ?_, ?_, ?_, ?_, ?_⟩ <;> try dsimp only
      ·
        intro t ht
        rcases List.mem_append.mp ht with h | h
        · exact hinv.highPure t h
        · rw [List.mem_singleton.mp h]
      ·
        intro t ht
        exact hinv.normalPure t ht
      ·
        intro t ht
        have hm : t ∈ EQqueued s ∨ t = ⟨s.nextId, Pri.high⟩ := by
          revert ht
          simp [EQqueued, List.mem_append]
          tauto
        rcases hm with hm | hm
        · have := hqlt t hm
          omega
        · rw [hm]
          exact Nat.lt_succ_self s.nextId
      ·
        intro t ht
        have := hinv.deliveredLt t ht
        omega
      ·
        have hnodup := hinv.nodup
        simp only [EQqueued, List.map_append, List.append_assoc, List.map_cons,
          List.map_nil, List.singleton_append] at hnodup hfresh ⊢
        refine nodup_perm_cons (n := s.nextId)
          (l := s.pendingHigh.map EQTask.id ++ (s.pendingNormal.map EQTask.id ++
            (s.curBatch.map EQTask.id ++ s.executing.toList.map EQTask.id))) ?_ ?_ ?_
        · exact List.perm_middle
        · exact hnodup
        · exact hfresh
      ·
        intro t ht
        have hm : (t ∈ s.pendingHigh ++ s.pendingNormal ++ s.curBatch) ∨
            t = ⟨s.nextId, Pri.high⟩ := by
          revert ht
          simp [List.mem_append]
          tauto
        rcases hm with hm | hm
        · have hlt : t.id < s.nextId := by
            refine hqlt t ?_
            simp only [EQqueued, List.append_assoc, List.mem_append]
            simp only [List.mem_append] at hm
            tauto
          rw [if_neg (by omega)]
          exact hinv.statusQueued t hm
        · rw [hm]
          rw [if_pos rfl]
          exact Or.inl rfl
      ·
        intro t ht
        have hlt : t.id < s.nextId := by
          refine hqlt t ?_
          simp [EQqueued, ht]
        rw [if_neg (by omega)]
        exact hinv.statusExec t ht
      ·
        intro t ht
        have hlt := hinv.deliveredLt t ht
        rw [if_neg (by omega)]
        exact hinv.statusDelivered t ht
      ·
        intro h
        exact hinv.stopIdle h
      ·
        intro h
        exact hinv.stopOnce h
      ·
        intro p
        rcases p with _ | _
        · have h0 := hinv.orderp Pri.normal
          simp only [EQorder] at h0 ⊢
          rw [if_neg (by decide : ¬(Pri.normal = Pri.high))] at h0 ⊢
          simp only [List.filter_append, List.filter_cons, List.filter_nil,
            show (Pri.high == Pri.normal) = false from rfl]
          simpa using h0
        · have h0 := hinv.orderp Pri.high
          simp only [EQorder] at h0 ⊢
          simp only [if_true] at h0 ⊢
          simp only [List.filter_append, List.filter_cons, List.filter_nil,
            beq_self_eq_true, if_true]
          try simp only [← List.append_assoc]
          refine List.Sublist.append ?_ (List.Sublist.refl _)
          simpa only [← List.append_assoc] using h0


/-- In a list with pairwise-distinct ids, an element's id differs from the
ids of the elements around it. -/
theorem nodup_sep {α : Type} (f : α → Nat) {l1 l2 : List α} {a : α}
    (h : ((l1 ++ a :: l2).map f).Nodup) : ∀ b ∈ l1 ++ l2, f b ≠ f a := by
  rw [List.map_append, List.map_cons, List.nodup_middle] at h
  intro b hb heq
  have : f a ∈ (l1 ++ l2).map f := by
    rw [← heq]
    exact List.mem_map_of_mem f hb
  rw [List.map_append] at this
  exact (List.nodup_cons.mp h).1 this

theorem filter_pri_of_pure {l : List EQTask} {p : Pri} (hp : ∀ t ∈ l, t.pri = p) :
    l.filter (fun t => t.pri == p) = l := by
  apply List.filter_eq_self.mpr
  intro t ht
  rw [hp t ht]
  simp

theorem filter_pri_of_pure_ne {l : List EQTask} {p q : Pri} (hpq : p ≠ q)
    (hp : ∀ t ∈ l, t.pri = p) :
    l.filter (fun t => t.pri == q) = [] := by
  rw [List.filter_eq_nil_iff]
  intro t ht
  rw [hp t ht]
  simp
  intro heq
  exact hpq heq

theorem EQInv_stop (s : EQState) (hinv : EQInv s) : EQInv (eqStop s) := by
  unfold eqStop
  by_cases hstop : s.stopped
  · rw [if_pos hstop]
    exact hinv
  · rw [if_neg hstop]
    have hsf : s.stopped = false := by
      revert hstop
      rcases s.stopped with _ | _ <;> simp
    have hidle := hinv.stopIdle hsf
    refine ⟨?_, ?_, ?_, ?_, ?_, ?_, ?_, ?_, ?_, ?_, ?_⟩ <;> try dsimp only
    · exact hinv.highPure
    · exact hinv.normalPure
    · exact hinv.queuedLt
    · exact hinv.deliveredLt
    · exact hinv.nodup
    · exact hinv.statusQueued
    · exact hinv.statusExec
    · exact hinv.statusDelivered
    · intro h
      simp at h
    · intro _
      rw [hidle.1]
      simp
    · exact hinv.orderp

theorem EQInv_takeBatch (s : EQState) (hinv : EQInv s) : EQInv (eqTakeBatch s) := by
  unfold eqTakeBatch
  by_cases hg : s.curBatch = [] ∧ s.executing = none
  · rw [if_pos hg]
    obtain ⟨hb, hx⟩ := hg
    by_cases hph : s.pendingHigh ≠ []
    · rw [if_pos hph]
      refine ⟨?_, ?_, ?_, ?_, ?_, ?_, ?_, ?_, ?_, ?_, ?_⟩ <;> try dsimp only
      · intro t ht
        simp at ht
      · exact hinv.normalPure
      · intro t ht
        refine hinv.queuedLt t ?_
        revert ht
        simp [EQqueued, hb, hx, List.mem_append]
        tauto
      · exact hinv.deliveredLt
      · have hnodup := hinv.nodup
        simp only [EQqueued, hb, hx, List.map_append, List.append_assoc, List.map_nil,
          Option.toList_none, List.append_nil, List.nil_append] at hnodup ⊢
        exact (List.perm_append_comm).nodup_iff.mpr hnodup
      · intro t ht
        refine hinv.statusQueued t ?_
        revert ht
        simp [hb, List.mem_append]
        tauto
      · exact hinv.statusExec
      · exact hinv.statusDelivered
      · exact hinv.stopIdle
      · exact hinv.stopOnce
      · intro p
        rcases p with _ | _
        · have h0 := hinv.orderp Pri.normal
          simp only [EQorder] at h0 ⊢
          rw [if_neg (by decide : ¬(Pri.normal = Pri.high))] at h0 ⊢
          rw [hb] at h0
          rw [filter_pri_of_pure_ne (by decide) hinv.highPure]
          simpa using h0
        · have h0 := hinv.orderp Pri.high
          simp only [EQorder] at h0 ⊢
          simp only [if_true] at h0 ⊢
          rw [hb] at h0
          rw [filter_pri_of_pure hinv.highPure]
          simpa using h0
    · rw [if_neg hph]
      have hphe : s.pendingHigh = [] := by
        by_contra hne
        exact hph hne
      by_cases hpn : s.pendingNormal ≠ []
      · rw [if_pos hpn]
        refine ⟨?_, ?_, ?_, ?_, ?_, ?_, ?_, ?_, ?_, ?_, ?_⟩ <;> try dsimp only
        · intro t ht
          rw [hphe] at ht
          simp at ht
        · intro t ht
          simp at ht
        · intro t ht
          refine hinv.queuedLt t ?_
          revert ht
          simp [EQqueued, hb, hx, List.mem_append]
          try tauto
        · exact hinv.deliveredLt
        · have hnodup := hinv.nodup
          simp only [EQqueued, hb, hx, hphe, List.map_append, List.append_assoc,
            List.map_nil, Option.toList_none, List.append_nil, List.nil_append]
            at hnodup ⊢
          exact hnodup
        · intro t ht
          refine hinv.statusQueued t ?_
          revert ht
          simp [hb, List.mem_append]
          try tauto
        · exact hinv.statusExec
        · exact hinv.statusDelivered
        · exact hinv.stopIdle
        · exact hinv.stopOnce
        · intro p
          rcases p with _ | _
          · have h0 := hinv.orderp Pri.normal
            simp only [EQorder] at h0 ⊢
            rw [if_neg (by decide : ¬(Pri.normal = Pri.high))] at h0 ⊢
            rw [hb] at h0
            rw [filter_pri_of_pure hinv.normalPure]
            simpa using h0
          · have h0 := hinv.orderp Pri.high
            simp only [EQorder] at h0 ⊢
            simp only [if_true] at h0 ⊢
            rw [hb] at h0
            rw [filter_pri_of_pure_ne (by decide) hinv.normalPure]
            simpa using h0
      · rw [if_neg hpn]
        by_cases hsp : s.stopPending
        · rw [if_pos hsp]
          refine ⟨?_, ?_, ?_, ?_, ?_, ?_, ?_, ?_, ?_, ?_, ?_⟩ <;> try dsimp only
          · exact hinv.highPure
          · exact hinv.normalPure
          · exact hinv.queuedLt
          · exact hinv.deliveredLt
          · exact hinv.nodup
          · exact hinv.statusQueued
          · exact hinv.statusExec
          · exact hinv.statusDelivered
          · intro h
            have := (hinv.stopIdle h).2
            rw [hsp] at this
            cases this
          · intro h
            have := hinv.stopOnce h
            rw [hsp] at this
            simp at this ⊢
            omega
          · exact hinv.orderp
        · rw [if_neg hsp]
          exact hinv
  · rw [if_neg hg]
    exact hinv

theorem EQInv_beginDispatch (s : EQState) (hinv : EQInv s) :
    EQInv (eqBeginDispatch s) := by
  rcases hx : s.executing with _ | u
  · rcases hc : s.curBatch with _ | ⟨h, rest⟩
    · unfold eqBeginDispatch
      rw [hx, hc]
      exact hinv
    · have hmemh : h ∈ s.pendingHigh ++ s.pendingNormal ++ s.curBatch := by
        rw [hc]
        simp
      by_cases hcan : s.status h.id = NodeStatus.cancelled
      · -- the cancelled head is skipped
        have hstate : eqBeginDispatch s = { s with curBatch := rest } := by
          unfold eqBeginDispatch
          rw [hx, hc]
          dsimp only
          rw [if_pos hcan]
        rw [hstate]
        have hsub : (s.pendingHigh ++ s.pendingNormal ++ rest ++ s.executing.toList).Sublist
            (s.pendingHigh ++ s.pendingNormal ++ s.curBatch ++ s.executing.toList) := by
          rw [hc]
          refine List.Sublist.append ?_ (List.Sublist.refl _)
          refine List.Sublist.append (List.Sublist.refl _) ?_
          exact List.sublist_cons_self h rest
        refine ⟨?_, ?_, ?_, ?_, ?_, ?_, ?_, ?_, ?_, ?_, ?_⟩ <;> try dsimp only
        · exact hinv.highPure
        · exact hinv.normalPure
        · intro t ht
          refine hinv.queuedLt t ?_
          revert ht
          simp [EQqueued, hc, hx, List.mem_append]
          tauto
        · exact hinv.deliveredLt
        · have hn := hinv.nodup
          have := (hsub.map EQTask.id).nodup hn
          simpa [EQqueued] using this
        · intro t ht
          refine hinv.statusQueued t ?_
          revert ht
          simp [hc, List.mem_append]
          tauto
        · exact hinv.statusExec
        · exact hinv.statusDelivered
        · exact hinv.stopIdle
        · exact hinv.stopOnce
        · intro p
          have h0 := hinv.orderp p
          simp only [EQorder] at h0 ⊢
          rw [hc] at h0
          refine List.Sublist.trans ?_ h0
          refine List.Sublist.append ?_ (List.Sublist.refl _)
          refine List.Sublist.append (List.Sublist.refl _) ?_
          exact (List.sublist_cons_self h rest).filter _
      · -- dispatch of the head begins
        have hpend : s.status h.id = NodeStatus.pending := by
          rcases hinv.statusQueued h hmemh with hp | hp
          · exact hp
          · exact absurd hp hcan
        have hstate : eqBeginDispatch s = { s with
            curBatch := rest,
            executing := some h,
            status := fun i => if i = h.id then NodeStatus.executing else s.status i } := by
          unfold eqBeginDispatch
          rw [hx, hc]
          dsimp only
          rw [if_neg hcan]
        rw [hstate]
        have hsep : ∀ b ∈ (s.pendingHigh ++ s.pendingNormal) ++ rest, b.id ≠ h.id := by
          have hn := hinv.nodup
          have hshape : ((((s.pendingHigh ++ s.pendingNormal) ++ (h :: rest)).map
              EQTask.id)).Nodup := by
            simpa [EQqueued, hc, hx, List.append_assoc] using hn
          exact nodup_sep EQTask.id hshape
        refine ⟨?_, ?_, ?_, ?_, ?_, ?_, ?_, ?_, ?_, ?_, ?_⟩ <;> try dsimp only
        · exact hinv.highPure
        · exact hinv.normalPure
        · intro t ht
          refine hinv.queuedLt t ?_
          revert ht
          simp [EQqueued, hc, hx, List.mem_append]
          tauto
        · exact hinv.deliveredLt
        · have hn := hinv.nodup
          have hshape : (((s.pendingHigh.map EQTask.id) ++ ((s.pendingNormal.map EQTask.id) ++
              (h.id :: (rest.map EQTask.id))))).Nodup := by
            simpa [EQqueued, hc, hx, List.append_assoc] using hn
          have hperm : ((s.pendingHigh.map EQTask.id) ++ ((s.pendingNormal.map EQTask.id) ++
              ((rest.map EQTask.id) ++ [h.id]))).Perm
              ((s.pendingHigh.map EQTask.id) ++ ((s.pendingNormal.map EQTask.id) ++
                (h.id :: (rest.map EQTask.id)))) := by
            refine List.Perm.append_left _ ?_
            refine List.Perm.append_left _ ?_
            exact List.perm_append_singleton h.id (rest.map EQTask.id)
          have := hperm.nodup_iff.mpr hshape
          simpa [EQqueued, List.append_assoc] using this
        · intro t ht
          have hne : t.id ≠ h.id := by
            refine hsep t ?_
            revert ht
            simp [List.mem_append]
            try tauto
          rw [if_neg hne]
          refine hinv.statusQueued t ?_
          revert ht
          simp [hc, List.mem_append]
          tauto
        · intro t ht
          have : h = t := by
            injection ht
          rw [← this, if_pos rfl]
        · intro t ht
          have hst := hinv.statusDelivered t ht
          have hne : t.id ≠ h.id := by
            intro heq
            rw [heq, hpend] at hst
            cases hst
          rw [if_neg hne]
          exact hst
        · exact hinv.stopIdle
        · exact hinv.stopOnce
        · intro p
          have h0 := hinv.orderp p
          simp only [EQorder, hx, Option.toList_none, Option.toList_some,
            List.filter_nil, List.filter_cons] at h0 ⊢
          rw [hc] at h0
          simp only [List.filter_cons] at h0
          by_cases hp : (h.pri == p) = true
          · simp only [hp, if_true] at h0 ⊢
            simpa using h0
          · simp only [Bool.not_eq_true] at hp
            simp only [hp] at h0 ⊢
            simpa using h0
  · unfold eqBeginDispatch
    rw [hx]
    rcases s.curBatch with _ | ⟨h, rest⟩
    · exact hinv
    · exact hinv

theorem EQInv_endDispatch (s : EQState) (hinv : EQInv s) :
    EQInv (eqEndDispatch s) := by
  rcases hx : s.executing with _ | u
  · unfold eqEndDispatch
    rw [hx]
    exact hinv
  · have hexecst : s.status u.id = NodeStatus.executing := hinv.statusExec u hx
    have hult : u.id < s.nextId := by
      refine hinv.queuedLt u ?_
      simp [EQqueued, hx]
    have hstate : eqEndDispatch s = { s with
        executing := none,
        delivered := s.delivered ++ [u],
        status := fun i => if i = u.id then NodeStatus.executed else s.status i } := by
      unfold eqEndDispatch
      rw [hx]
    rw [hstate]
    have hqne : ∀ t ∈ s.pendingHigh ++ s.pendingNormal ++ s.curBatch, t.id ≠ u.id := by
      intro t ht heq
      rcases hinv.statusQueued t ht with hp | hp <;> rw [heq, hexecst] at hp <;> cases hp
    refine ⟨?_, ?_, ?_, ?_, ?_, ?_, ?_, ?_, ?_, ?_, ?_⟩ <;> try dsimp only
    · exact hinv.highPure
    · exact hinv.normalPure
    · intro t ht
      refine hinv.queuedLt t ?_
      revert ht
      simp [EQqueued, hx, List.mem_append]
      try tauto
    · intro t ht
      rcases List.mem_append.mp ht with hm | hm
      · exact hinv.deliveredLt t hm
      · rw [List.mem_singleton.mp hm]
        exact hult
    · have hn := hinv.nodup
      simp only [EQqueued, hx, Option.toList_some, Option.toList_none, List.map_append,
        List.append_nil] at hn ⊢
      exact hn.of_append_left
    · intro t ht
      have hne := hqne t ht
      rw [if_neg hne]
      exact hinv.statusQueued t ht
    · intro t ht
      cases ht
    · intro t ht
      rcases List.mem_append.mp ht with hm | hm
      · have hst := hinv.statusDelivered t hm
        have hne : t.id ≠ u.id := by
          intro heq
          rw [heq, hexecst] at hst
          cases hst
        rw [if_neg hne]
        exact hst
      · rw [List.mem_singleton.mp hm, if_pos rfl]
    · exact hinv.stopIdle
    · exact hinv.stopOnce
    · intro p
      have h0 := hinv.orderp p
      simp only [EQorder, hx, Option.toList_some, Option.toList_none, List.filter_append,
        List.filter_nil] at h0 ⊢
      simpa using h0

theorem EQInv_cancel (s : EQState) (h : Nat) (hinv : EQInv s) :
    EQInv (execution_queue_cancel s h).2 := by
  unfold execution_queue_cancel
  by_cases hge : s.nextId ≤ h
  · rw [if_pos hge]
    exact hinv
  · rw [if_neg hge]
    rcases hst : s.status h with _ | _ | _ | _
    case _ =>
      dsimp only
      refine ⟨?_, ?_, ?_, ?_, ?_, ?_, ?_, ?_, ?_, ?_, ?_⟩ <;> try dsimp only
      · exact hinv.highPure
      · exact hinv.normalPure
      · exact hinv.queuedLt
      · exact hinv.deliveredLt
      · exact hinv.nodup
      · intro t ht
        by_cases hne : t.id = h
        · rw [if_pos hne]
          right
          rfl
        · rw [if_neg hne]
          exact hinv.statusQueued t ht
      · intro t ht
        have hs := hinv.statusExec t ht
        have hne : t.id ≠ h := by
          intro heq
          rw [heq, hst] at hs
          cases hs
        rw [if_neg hne]
        exact hs
      · intro t ht
        have hs := hinv.statusDelivered t ht
        have hne : t.id ≠ h := by
          intro heq
          rw [heq, hst] at hs
          cases hs
        rw [if_neg hne]
        exact hs
      · exact hinv.stopIdle
      · exact hinv.stopOnce
      · exact hinv.orderp
    case _ =>
      exact hinv
    case _ =>
      exact hinv
    case _ =>
      exact hinv

theorem EQInv_step (s : EQState) (e : EQEvent) (hinv : EQInv s) :
    EQInv (EQStep s e) := by
  cases e with
  | submit pr => exact EQInv_submit s pr hinv
  | stop => exact EQInv_stop s hinv
  | takeBatch => exact EQInv_takeBatch s hinv
  | beginDispatch => exact EQInv_beginDispatch s hinv
  | endDispatch => exact EQInv_endDispatch s hinv
  | cancel h => exact EQInv_cancel s h hinv

theorem EQInv_runFrom (es : List EQEvent) (s : EQState) (hinv : EQInv s) :
    EQInv (EQRunFrom s es) := by
  induction es generalizing s with
  | nil => exact hinv
  | cons e es ih =>
    exact ih (EQStep s e) (EQInv_step s e hinv)

theorem EQInv_run (es : List EQEvent) : EQInv (EQRun es) :=
  EQInv_runFrom es EQInit EQInv_init

theorem eqEndDispatch_flags (s : EQState) :
    (eqEndDispatch s).stopDelivered = s.stopDelivered ∧
      (eqEndDispatch s).stopPending = s.stopPending := by
  unfold eqEndDispatch
  rcases s.executing with _ | u <;> exact ⟨rfl, rfl⟩

theorem eqBeginDispatch_flags (s : EQState) :
    (eqBeginDispatch s).stopDelivered = s.stopDelivered ∧
      (eqBeginDispatch s).stopPending = s.stopPending := by
  unfold eqBeginDispatch
  rcases s.executing with _ | u
  · rcases s.curBatch with _ | ⟨a, b⟩
    · exact ⟨rfl, rfl⟩
    · dsimp only
      split_ifs <;> exact ⟨rfl, rfl⟩
  · exact ⟨rfl, rfl⟩

theorem EQDrain_stopDelivered (s : EQState) :
    (EQDrain s).stopDelivered = s.stopDelivered + (if s.stopPending then 1 else 0) := by
  have H : ∀ (n : Nat) (s : EQState), EQMeasure s ≤ n →
      (EQDrain s).stopDelivered = s.stopDelivered + (if s.stopPending then 1 else 0) := by
    intro n
    induction n with
    | zero =>
      intro s hm
      unfold EQMeasure at hm
      have hx : ¬ s.executing.isSome = true := by
        rcases hs : s.executing with _ | u
        · simp
        · rw [hs] at hm
          simp at hm
      have hb : s.curBatch = [] := by
        rcases hcb : s.curBatch with _ | ⟨a, b⟩
        · rfl
        · rw [hcb] at hm
          simp at hm
      have hph : s.pendingHigh = [] := List.eq_nil_of_length_eq_zero (by omega)
      have hpn : s.pendingNormal = [] := List.eq_nil_of_length_eq_zero (by omega)
      have hsp : ¬ s.stopPending = true := by
        rcases hv : s.stopPending
        · simp
        · rw [hv] at hm
          simp at hm
      rw [EQDrain, if_neg hx, if_neg (by simp [hb]), if_neg (by simp [hph, hpn]),
        if_neg hsp, if_neg hsp]
      omega
    | succ n ih =>
      intro s hm
      by_cases hx : s.executing.isSome
      · have hd : EQMeasure (eqEndDispatch s) < EQMeasure s := by
          rcases hs : s.executing with _ | u
          · rw [hs] at hx
            simp at hx
          · simp [EQMeasure, eqEndDispatch, hs] <;> omega
        have hf := eqEndDispatch_flags s
        rw [EQDrain, if_pos hx, ih _ (by omega), hf.1, hf.2]
      · by_cases hb : s.curBatch ≠ []
        · have hd : EQMeasure (eqBeginDispatch s) < EQMeasure s := by
            rcases hs : s.executing with _ | u
            · rcases hcb : s.curBatch with _ | ⟨a, b⟩
              · rw [hcb] at hb
                simp at hb
              · by_cases hcan : s.status a.id = NodeStatus.cancelled
                all_goals simp [EQMeasure, eqBeginDispatch, hs, hcb, hcan] <;> omega
            · rw [hs] at hx
              simp at hx
          have hf := eqBeginDispatch_flags s
          rw [EQDrain, if_neg hx, if_pos hb, ih _ (by omega), hf.1, hf.2]
        · have hbe : s.curBatch = [] := by
            by_contra hne
            exact hb hne
          have hxe : s.executing = none := by
            rcases hs : s.executing with _ | u
            · rfl
            · rw [hs] at hx
              simp at hx
          by_cases hp : s.pendingHigh ≠ [] ∨ s.pendingNormal ≠ []
          · have hstep : ∃ l1 l2 : List EQTask, eqTakeBatch s =
                { s with curBatch := l1, pendingHigh := l2 } ∨ eqTakeBatch s =
                { s with curBatch := l1, pendingNormal := l2 } := by
              unfold eqTakeBatch
              rw [if_pos ⟨hbe, hxe⟩]
              by_cases hph : s.pendingHigh ≠ []
              · rw [if_pos hph]
                exact ⟨s.pendingHigh, [], Or.inl rfl⟩
              · rw [if_neg hph]
                rcases hp with hp | hp
                · exact absurd hp hph
                · rw [if_pos hp]
                  exact ⟨s.pendingNormal, [], Or.inr rfl⟩
            have hd : EQMeasure (eqTakeBatch s) < EQMeasure s := by
              unfold eqTakeBatch
              rw [if_pos ⟨hbe, hxe⟩]
              by_cases hph : s.pendingHigh ≠ []
              · rw [if_pos hph]
                have hlen : s.pendingHigh.length ≠ 0 := by simpa using hph
                unfold EQMeasure
                dsimp only
                simp [hbe]
                omega
              · rw [if_neg hph]
                have hpn : s.pendingNormal ≠ [] := by
                  rcases hp with hp | hp
                  · exact absurd hp hph
                  · exact hp
                rw [if_pos hpn]
                have hlen : s.pendingNormal.length ≠ 0 := by simpa using hpn
                unfold EQMeasure
                dsimp only
                simp [hbe]
                omega
            have hf : (eqTakeBatch s).stopDelivered = s.stopDelivered ∧
                (eqTakeBatch s).stopPending = s.stopPending := by
              obtain ⟨l1, l2, hstep | hstep⟩ := hstep <;> rw [hstep] <;> exact ⟨rfl, rfl⟩
            rw [EQDrain, if_neg hx, if_neg (by simpa [hbe] using hb), if_pos hp,
              ih _ (by omega), hf.1, hf.2]
          · by_cases hsp : s.stopPending
            · have hphe : s.pendingHigh = [] := by
                by_contra hne
                exact hp (Or.inl hne)
              have hpne : s.pendingNormal = [] := by
                by_contra hne
                exact hp (Or.inr hne)
              have hstep : eqTakeBatch s =
                  { s with stopPending := false, stopDelivered := s.stopDelivered + 1 } := by
                unfold eqTakeBatch
                rw [if_pos ⟨hbe, hxe⟩, if_neg (by simpa using hphe),
                  if_neg (by simpa using hpne), if_pos hsp]
              have hd : EQMeasure (eqTakeBatch s) < EQMeasure s := by
                rw [hstep]
                unfold EQMeasure
                dsimp only
                simp [hsp]
              rw [EQDrain, if_neg hx, if_neg (by simpa [hbe] using hb), if_neg hp, if_pos hsp,
                ih _ (by omega), hstep]
              dsimp only
              simp [hsp]
            · rw [EQDrain, if_neg hx, if_neg (by simpa [hbe] using hb), if_neg hp,
                if_neg hsp, if_neg hsp]
              omega
  exact H (EQMeasure s) s (Nat.le_refl _)

open EQTask in
/-- **C1.** For every execution queue and every two submissions of equal
priority, the consumer callback `on_batch` observes the first task no later
than the second: in every reachable state, the sequence of delivered tasks
of priority `p` is a sublist (order-preserving subsequence) of the accepted
submissions of priority `p` in submission order. -/
theorem C1_same_priority_submission_order (es : List EQEvent) (p : Pri) :
    ((EQRun es).delivered.filter (fun t => t.pri == p)).Sublist
      ((EQRun es).submitted.filter (fun t => t.pri == p)) := by
  have hinv := EQInv_run es
  have h0 := hinv.orderp p
  refine List.Sublist.trans ?_ h0
  simp only [EQorder]
  exact ((List.sublist_append_left _ _).trans (List.sublist_append_left _ _)).trans
    (List.sublist_append_left _ _)

/-- **C2.** After `stop` is called, the consumer invokes `on_batch` with
`is_queue_stopped() = true` exactly once — at most once in any reachable
state, exactly once when the consumer drains the queue — and this
invocation happens only when every task pending at that point has been
dispatched (both pending lists, the current batch and the mid-dispatch
slot are empty). -/
theorem C2_stop_sentinel (es : List EQEvent) :
    (EQRun es).stopDelivered ≤ 1
    ∧ ((EQRun es).stopped = true → (EQDrain (EQRun es)).stopDelivered = 1)
    ∧ ((eqTakeBatch (EQRun es)).stopDelivered ≠ (EQRun es).stopDelivered →
        (EQRun es).pendingHigh = [] ∧ (EQRun es).pendingNormal = [] ∧
        (EQRun es).curBatch = [] ∧ (EQRun es).executing = none ∧
        (EQRun es).stopPending = true) := by
  have hinv := EQInv_run es
  refine ⟨?_, ?_, ?_⟩
  · rcases hstop : (EQRun es).stopped with _ | _
    · have := hinv.stopIdle hstop
      omega
    · have := hinv.stopOnce hstop
      rcases hsp : (EQRun es).stopPending <;> rw [hsp] at this <;> simp at this <;> omega
  · intro hstop
    rw [EQDrain_stopDelivered]
    exact hinv.stopOnce hstop
  · intro hne
    unfold eqTakeBatch at hne
    by_cases hg : (EQRun es).curBatch = [] ∧ (EQRun es).executing = none
    · rw [if_pos hg] at hne
      by_cases hph : (EQRun es).pendingHigh ≠ []
      · rw [if_pos hph] at hne
        simp at hne
      · rw [if_neg hph] at hne
        by_cases hpn : (EQRun es).pendingNormal ≠ []
        · rw [if_pos hpn] at hne
          simp at hne
        · rw [if_neg hpn] at hne
          by_cases hsp : (EQRun es).stopPending
          · refine ⟨?_, ?_, hg.1, hg.2, hsp⟩
            · by_contra hcon
              exact hph hcon
            · by_contra hcon
              exact hpn hcon
          · rw [if_neg hsp] at hne
            exact absurd rfl hne
    · rw [if_neg hg] at hne
      exact absurd rfl hne

/-- Witness for `C2_stop_sentinel`: after two submissions, a stop and a
full consumer round, the queue is stopped, quiescent, and the pending
sentinel is the only thing the next batch boundary delivers. -/
theorem C2_stop_sentinel_witness :
    ((EQRun (sampleEvents.take 9)).stopped = true
     ∧ (eqTakeBatch (EQRun (sampleEvents.take 9))).stopDelivered ≠
         (EQRun (sampleEvents.take 9)).stopDelivered)
    ∧ ((EQRun (sampleEvents.take 9)).stopDelivered ≤ 1
       ∧ ((EQRun (sampleEvents.take 9)).stopped = true →
           (EQDrain (EQRun (sampleEvents.take 9))).stopDelivered = 1)
       ∧ ((eqTakeBatch (EQRun (sampleEvents.take 9))).stopDelivered ≠
             (EQRun (sampleEvents.take 9)).stopDelivered →
           (EQRun (sampleEvents.take 9)).pendingHigh = [] ∧
           (EQRun (sampleEvents.take 9)).pendingNormal = [] ∧
           (EQRun (sampleEvents.take 9)).curBatch = [] ∧
           (EQRun (sampleEvents.take 9)).executing = none ∧
           (EQRun (sampleEvents.take 9)).stopPending = true)) :=
  ⟨⟨by decide, by decide⟩, C2_stop_sentinel (sampleEvents.take 9)⟩

/-- **C8.** Once `execution_queue_stop` has been called, every subsequent
`execution_queue_execute` on that queue fails immediately with a nonzero
error and the task is not enqueued (the state is unchanged); the stopped
flag is set by `stop` and is never cleared by any later event. -/
theorem C8_execute_after_stop (es : List EQEvent) (pr : Pri)
    (hstop : (EQRun es).stopped = true) :
    (eqSubmit (EQRun es) pr).1 ≠ 0
    ∧ (eqSubmit (EQRun es) pr).2 = EQRun es
    ∧ (∀ e : EQEvent, (EQStep (EQRun es) e).stopped = true)
    ∧ (∀ s : EQState, (eqStop s).stopped = true) := by
  refine ⟨?_, ?_, ?_, ?_⟩
  · unfold eqSubmit
    rw [if_pos hstop]
    show (22 : Int) ≠ 0
    decide
  · unfold eqSubmit
    rw [if_pos hstop]
  · intro e
    cases e with
    | submit pr2 =>
      show ((eqSubmit (EQRun es) pr2).2).stopped = true
      unfold eqSubmit
      rw [if_pos hstop]
      exact hstop
    | stop =>
      show (eqStop (EQRun es)).stopped = true
      unfold eqStop
      rw [if_pos hstop]
      exact hstop
    | takeBatch =>
      show (eqTakeBatch (EQRun es)).stopped = true
      unfold eqTakeBatch
      split_ifs <;> exact hstop
    | beginDispatch =>
      show (eqBeginDispatch (EQRun es)).stopped = true
      unfold eqBeginDispatch
      rcases (EQRun es).executing with _ | u
      · rcases (EQRun es).curBatch with _ | ⟨a, b⟩
        · exact hstop
        · dsimp only
          split_ifs <;> exact hstop
      · exact hstop
    | endDispatch =>
      show (eqEndDispatch (EQRun es)).stopped = true
      unfold eqEndDispatch
      rcases (EQRun es).executing with _ | u
      · exact hstop
      · exact hstop
    | cancel h =>
      show ((execution_queue_cancel (EQRun es) h).2).stopped = true
      unfold execution_queue_cancel
      split_ifs
      · exact hstop
      · rcases (EQRun es).status h with _ | _ | _ | _ <;> exact hstop
  · intro s
    unfold eqStop
    split_ifs with hs
    · exact hs
    · rfl

/-- Witness for `C8_execute_after_stop` at a concrete input. -/
theorem C8_execute_after_stop_witness :
    (EQRun [EQEvent.stop]).stopped = true ∧
    ((eqSubmit (EQRun [EQEvent.stop]) Pri.normal).1 ≠ 0
     ∧ (eqSubmit (EQRun [EQEvent.stop]) Pri.normal).2 = EQRun [EQEvent.stop]
     ∧ (∀ e : EQEvent, (EQStep (EQRun [EQEvent.stop]) e).stopped = true)
     ∧ (∀ s : EQState, (eqStop s).stopped = true)) :=
  ⟨by decide, C8_execute_after_stop [EQEvent.stop] Pri.normal (by decide)⟩

/-- **C4.** A high-priority submission is dispatched before every pending
normal-priority task, but only at a batch boundary: at a boundary with
high-priority tasks pending the consumer takes exactly the pending
high-priority list (FIFO) as the next batch and leaves the normal tasks
pending; mid-batch, the batch boundary step is a no-op, a submission never
alters the batch being iterated, and `on_batch` observes tasks only from
the current batch (at `endDispatch` of the task whose dispatch began). -/
theorem C4_high_priority_batch (s : EQState)
    (hb : s.curBatch = []) (hx : s.executing = none) (hph : s.pendingHigh ≠ []) :
    (eqTakeBatch s).curBatch = s.pendingHigh
    ∧ (eqTakeBatch s).pendingHigh = []
    ∧ (eqTakeBatch s).pendingNormal = s.pendingNormal
    ∧ (eqTakeBatch s).delivered = s.delivered
    ∧ (∀ s' : EQState, s'.curBatch ≠ [] → eqTakeBatch s' = s')
    ∧ (∀ (s' : EQState) (p : Pri), ((eqSubmit s' p).2).curBatch = s'.curBatch)
    ∧ (∀ s' : EQState, (eqBeginDispatch s').delivered = s'.delivered)
    ∧ (∀ (s' : EQState) (u : EQTask), s'.executing = some u →
        (eqEndDispatch s').delivered = s'.delivered ++ [u]) := by
  have hmain : eqTakeBatch s = { s with curBatch := s.pendingHigh, pendingHigh := [] } := by
    unfold eqTakeBatch
    rw [if_pos ⟨hb, hx⟩, if_pos hph]
  refine ⟨by rw [hmain], by rw [hmain], by rw [hmain], by rw [hmain], ?_, ?_, ?_, ?_⟩
  · intro s' hne
    unfold eqTakeBatch
    rw [if_neg (fun hg => hne hg.1)]
  · intro s' p
    unfold eqSubmit
    split_ifs <;> rfl
  · intro s'
    unfold eqBeginDispatch
    rcases s'.executing with _ | u
    · rcases s'.curBatch with _ | ⟨a, b⟩
      · rfl
      · dsimp only
        split_ifs <;> rfl
    · rfl
  · intro s' u hu
    unfold eqEndDispatch
    rw [hu]

/-- Witness for `C4_high_priority_batch`: a queue with one pending
high-priority and one pending normal task at a batch boundary. -/
theorem C4_high_priority_batch_witness :
    ((EQRun [EQEvent.submit Pri.high, EQEvent.submit Pri.normal]).curBatch = []
     ∧ (EQRun [EQEvent.submit Pri.high, EQEvent.submit Pri.normal]).executing = none
     ∧ (EQRun [EQEvent.submit Pri.high, EQEvent.submit Pri.normal]).pendingHigh ≠ [])
    ∧ ((eqTakeBatch (EQRun [EQEvent.submit Pri.high, EQEvent.submit Pri.normal])).curBatch =
         (EQRun [EQEvent.submit Pri.high, EQEvent.submit Pri.normal]).pendingHigh
       ∧ (eqTakeBatch (EQRun [EQEvent.submit Pri.high, EQEvent.submit Pri.normal])).pendingHigh = []
       ∧ (eqTakeBatch (EQRun [EQEvent.submit Pri.high, EQEvent.submit Pri.normal])).pendingNormal =
           (EQRun [EQEvent.submit Pri.high, EQEvent.submit Pri.normal]).pendingNormal
       ∧ (eqTakeBatch (EQRun [EQEvent.submit Pri.high, EQEvent.submit Pri.normal])).delivered =
           (EQRun [EQEvent.submit Pri.high, EQEvent.submit Pri.normal]).delivered
       ∧ (∀ s' : EQState, s'.curBatch ≠ [] → eqTakeBatch s' = s')
       ∧ (∀ (s' : EQState) (p : Pri), ((eqSubmit s' p).2).curBatch = s'.curBatch)
       ∧ (∀ s' : EQState, (eqBeginDispatch s').delivered = s'.delivered)
       ∧ (∀ (s' : EQState) (u : EQTask), s'.executing = some u →
           (eqEndDispatch s').delivered = s'.delivered ++ [u])) :=
  ⟨⟨by decide, by decide, by decide⟩,
   C4_high_priority_batch (EQRun [EQEvent.submit Pri.high, EQEvent.submit Pri.normal])
     (by decide) (by decide) (by decide)⟩

/-- A node marked cancelled stays cancelled, its handle stays in range,
and no delivered task ever carries its id — preserved by every event. -/
theorem cancel_mark_step (s : EQState) (e : EQEvent) (h : Nat) (hinv : EQInv s)
    (hlt : h < s.nextId) (hcan : s.status h = NodeStatus.cancelled)
    (hout : ∀ t ∈ s.delivered, t.id ≠ h) :
    h < (EQStep s e).nextId ∧ (EQStep s e).status h = NodeStatus.cancelled ∧
      (∀ t ∈ (EQStep s e).delivered, t.id ≠ h) := by
  cases e with
  | submit pr =>
    simp only [EQStep]
    unfold eqSubmit
    by_cases hstop : s.stopped
    · rw [if_pos hstop]
      exact ⟨hlt, hcan, hout⟩
    · rw [if_neg hstop]
      refine ⟨by dsimp only; omega, ?_, hout⟩
      dsimp only
      rw [if_neg (by omega)]
      exact hcan
  | stop =>
    simp only [EQStep]
    unfold eqStop
    split_ifs <;> exact ⟨hlt, hcan, hout⟩
  | takeBatch =>
    simp only [EQStep]
    unfold eqTakeBatch
    split_ifs <;> exact ⟨hlt, hcan, hout⟩
  | beginDispatch =>
    simp only [EQStep]
    unfold eqBeginDispatch
    rcases hx : s.executing with _ | u
    · rcases hc : s.curBatch with _ | ⟨a, b⟩
      · exact ⟨hlt, hcan, hout⟩
      · dsimp only
        split_ifs with hcanA
        · exact ⟨hlt, hcan, hout⟩
        · refine ⟨hlt, ?_, hout⟩
          dsimp only
          have hne : ¬ (h = a.id) := by
            intro heq
            rw [← heq, hcan] at hcanA
            exact hcanA rfl
          rw [if_neg hne]
          exact hcan
    · exact ⟨hlt, hcan, hout⟩
  | endDispatch =>
    simp only [EQStep]
    unfold eqEndDispatch
    rcases hx : s.executing with _ | u
    · exact ⟨hlt, hcan, hout⟩
    · have hust : s.status u.id = NodeStatus.executing := hinv.statusExec u hx
      have hne : u.id ≠ h := by
        intro heq
        rw [heq, hcan] at hust
        cases hust
      refine ⟨hlt, ?_, ?_⟩
      · dsimp only
        rw [if_neg (fun heq => hne heq.symm)]
        exact hcan
      · intro t ht
        dsimp only at ht
        rcases List.mem_append.mp ht with hm | hm
        · exact hout t hm
        · rw [List.mem_singleton.mp hm]
          exact hne
  | cancel h2 =>
    simp only [EQStep]
    unfold execution_queue_cancel
    split_ifs
    · exact ⟨hlt, hcan, hout⟩
    · rcases s.status h2 with _ | _ | _ | _ <;> dsimp only
      · refine ⟨hlt, ?_, hout⟩
        by_cases hne : h = h2
        · rw [if_pos hne]
        · rw [if_neg hne]
          exact hcan
      · exact ⟨hlt, hcan, hout⟩
      · exact ⟨hlt, hcan, hout⟩
      · exact ⟨hlt, hcan, hout⟩

/-- Once a node is cancelled, no continuation of the run delivers it. -/
theorem cancelled_never_delivered (es : List EQEvent) (s : EQState) (h : Nat)
    (hinv : EQInv s) (hlt : h < s.nextId) (hcan : s.status h = NodeStatus.cancelled)
    (hout : ∀ t ∈ s.delivered, t.id ≠ h) :
    ∀ t ∈ (EQRunFrom s es).delivered, t.id ≠ h := by
  induction es generalizing s with
  | nil => exact hout
  | cons e es ih =>
    have hstep := cancel_mark_step s e h hinv hlt hcan hout
    exact ih (EQStep s e) (EQInv_step s e hinv) hstep.1 hstep.2.1 hstep.2.2

/-- **C3.** `execution_queue_cancel` returns exactly one of three
outcomes: 0 (success — precisely when the handle is in range and the node
is still pending; the payload is then never presented to `on_batch` in any
continuation of the run), 1 (the task is executing — its dispatch already
began), or -1 (the task was already executed or cancelled, or the handle
is stale). -/
theorem C3_cancel_outcomes (es : List EQEvent) (h : Nat) :
    ((execution_queue_cancel (EQRun es) h).1 = 0 ∨
     (execution_queue_cancel (EQRun es) h).1 = 1 ∨
     (execution_queue_cancel (EQRun es) h).1 = -1)
    ∧ ((execution_queue_cancel (EQRun es) h).1 = 0 ↔
        h < (EQRun es).nextId ∧ (EQRun es).status h = NodeStatus.pending)
    ∧ ((execution_queue_cancel (EQRun es) h).1 = 1 ↔
        h < (EQRun es).nextId ∧ (EQRun es).status h = NodeStatus.executing)
    ∧ ((execution_queue_cancel (EQRun es) h).1 = -1 ↔
        ((EQRun es).nextId ≤ h ∨ (EQRun es).status h = NodeStatus.executed ∨
         (EQRun es).status h = NodeStatus.cancelled))
    ∧ ((execution_queue_cancel (EQRun es) h).1 = 0 →
        ∀ (es2 : List EQEvent) (t : EQTask),
          t ∈ (EQRunFrom (execution_queue_cancel (EQRun es) h).2 es2).delivered →
            t.id ≠ h) := by
  have hinv := EQInv_run es
  have hres : ∀ es2 t, (execution_queue_cancel (EQRun es) h).1 = 0 →
      t ∈ (EQRunFrom (execution_queue_cancel (EQRun es) h).2 es2).delivered → t.id ≠ h := by
    intro es2 t hz
    have hinv2 : EQInv (execution_queue_cancel (EQRun es) h).2 :=
      EQInv_cancel (EQRun es) h hinv
    by_cases hge : (EQRun es).nextId ≤ h
    · unfold execution_queue_cancel at hz
      rw [if_pos hge] at hz
      cases hz
    · rcases hst : (EQRun es).status h with _ | _ | _ | _
      case _ =>
        have hstate : (execution_queue_cancel (EQRun es) h).2 = { EQRun es with
            status := fun i => if i = h then NodeStatus.cancelled
              else (EQRun es).status i } := by
          unfold execution_queue_cancel
          rw [if_neg hge, hst]
        have hout : ∀ t2 ∈ ((execution_queue_cancel (EQRun es) h).2).delivered,
            t2.id ≠ h := by
          rw [hstate]
          intro t2 ht2
          have := hinv.statusDelivered t2 ht2
          intro heq
          rw [heq, hst] at this
          cases this
        refine cancelled_never_delivered es2 _ h hinv2 ?_ ?_ hout t
        · rw [hstate]
          exact (by omega : h < (EQRun es).nextId)
        · rw [hstate]
          dsimp only
          rw [if_pos rfl]
      all_goals
        unfold execution_queue_cancel at hz
        rw [if_neg hge, hst] at hz
        cases hz
  refine ⟨?_, ?_, ?_, ?_, fun hz es2 t => hres es2 t hz⟩
  · unfold execution_queue_cancel
    by_cases hge : (EQRun es).nextId ≤ h
    · rw [if_pos hge]
      right
      right
      rfl
    · rw [if_neg hge]
      rcases (EQRun es).status h with _ | _ | _ | _ <;> dsimp only
      · left
        rfl
      · right
        left
        rfl
      · right
        right
        rfl
      · right
        right
        rfl
  · unfold execution_queue_cancel
    by_cases hge : (EQRun es).nextId ≤ h
    · rw [if_pos hge]
      constructor
      · intro hz
        simp at hz
      · rintro ⟨hlt2, _⟩
        omega
    · rw [if_neg hge]
      rcases hst : (EQRun es).status h with _ | _ | _ | _ <;> dsimp only
      · exact ⟨fun _ => ⟨by omega, rfl⟩, fun _ => rfl⟩
      · refine ⟨fun hz => by simp at hz, ?_⟩
        rintro ⟨_, hpend⟩
        cases hpend
      · refine ⟨fun hz => by simp at hz, ?_⟩
        rintro ⟨_, hpend⟩
        cases hpend
      · refine ⟨fun hz => by simp at hz, ?_⟩
        rintro ⟨_, hpend⟩
        cases hpend
  · unfold execution_queue_cancel
    by_cases hge : (EQRun es).nextId ≤ h
    · rw [if_pos hge]
      constructor
      · intro hz
        simp at hz
      · rintro ⟨hlt2, _⟩
        omega
    · rw [if_neg hge]
      rcases hst : (EQRun es).status h with _ | _ | _ | _ <;> dsimp only
      · refine ⟨fun hz => by simp at hz, ?_⟩
        rintro ⟨_, hexec⟩
        cases hexec
      · exact ⟨fun _ => ⟨by omega, rfl⟩, fun _ => rfl⟩
      · refine ⟨fun hz => by simp at hz, ?_⟩
        rintro ⟨_, hexec⟩
        cases hexec
      · refine ⟨fun hz => by simp at hz, ?_⟩
        rintro ⟨_, hexec⟩
        cases hexec
  · unfold execution_queue_cancel
    by_cases hge : (EQRun es).nextId ≤ h
    · rw [if_pos hge]
      exact ⟨fun _ => Or.inl hge, fun _ => rfl⟩
    · rw [if_neg hge]
      rcases hst : (EQRun es).status h with _ | _ | _ | _ <;> dsimp only
      · refine ⟨fun hz => by simp at hz, ?_⟩
        rintro (hc | hc | hc)
        · exact absurd hc hge
        · cases hc
        · cases hc
      · refine ⟨fun hz => by simp at hz, ?_⟩
        rintro (hc | hc | hc)
        · exact absurd hc hge
        · cases hc
        · cases hc
      · exact ⟨fun _ => Or.inr (Or.inl rfl), fun _ => rfl⟩
      · exact ⟨fun _ => Or.inr (Or.inr rfl), fun _ => rfl⟩

/-- Witness for `C3_cancel_outcomes`: cancelling the only pending
submission succeeds. -/
theorem C3_cancel_outcomes_witness :
    (execution_queue_cancel (EQRun [EQEvent.submit Pri.normal]) 0).1 = 0 ∧
    (((execution_queue_cancel (EQRun [EQEvent.submit Pri.normal]) 0).1 = 0 ∨
      (execution_queue_cancel (EQRun [EQEvent.submit Pri.normal]) 0).1 = 1 ∨
      (execution_queue_cancel (EQRun [EQEvent.submit Pri.normal]) 0).1 = -1)
     ∧ ((execution_queue_cancel (EQRun [EQEvent.submit Pri.normal]) 0).1 = 0 ↔
         0 < (EQRun [EQEvent.submit Pri.normal]).nextId ∧
         (EQRun [EQEvent.submit Pri.normal]).status 0 = NodeStatus.pending)
     ∧ ((execution_queue_cancel (EQRun [EQEvent.submit Pri.normal]) 0).1 = 1 ↔
         0 < (EQRun [EQEvent.submit Pri.normal]).nextId ∧
         (EQRun [EQEvent.submit Pri.normal]).status 0 = NodeStatus.executing)
     ∧ ((execution_queue_cancel (EQRun [EQEvent.submit Pri.normal]) 0).1 = -1 ↔
         ((EQRun [EQEvent.submit Pri.normal]).nextId ≤ 0 ∨
          (EQRun [EQEvent.submit Pri.normal]).status 0 = NodeStatus.executed ∨
          (EQRun [EQEvent.submit Pri.normal]).status 0 = NodeStatus.cancelled))
     ∧ ((execution_queue_cancel (EQRun [EQEvent.submit Pri.normal]) 0).1 = 0 →
         ∀ (es2 : List EQEvent) (t : EQTask),
           t ∈ (EQRunFrom (execution_queue_cancel
             (EQRun [EQEvent.submit Pri.normal]) 0).2 es2).delivered → t.id ≠ 0)) :=
  ⟨by decide, C3_cancel_outcomes [EQEvent.submit Pri.normal] 0⟩

/-! ## Theorems: timer cancellation and parking -/

/-- The callback has run exactly once iff the entry is FIRED. -/
theorem timer_runs_inv (es : List TimerEvent) :
    (timerRun es).runs = (if (timerRun es).state = TimerState.fired then 1 else 0) := by
  have H : ∀ (es : List TimerEvent) (t : Timer),
      t.runs = (if t.state = TimerState.fired then 1 else 0) →
      (timerRunFrom t es).runs =
        (if (timerRunFrom t es).state = TimerState.fired then 1 else 0) := by
    intro es
    induction es with
    | nil => exact fun t h => h
    | cons e es ih =>
      intro t h
      refine ih (timerStep t e) ?_
      cases e with
      | fire =>
        show (timerFire t).runs = (if (timerFire t).state = TimerState.fired then 1 else 0)
        unfold timerFire
        by_cases hs : t.state = TimerState.notCanceled
        · rw [if_pos hs]
          dsimp only
          rw [if_pos rfl, h, hs]
          simp
        · rw [if_neg hs]
          exact h
      | cancel =>
        show ((timer_cancel t).2).runs =
          (if ((timer_cancel t).2).state = TimerState.fired then 1 else 0)
        unfold timer_cancel
        rcases hs : t.state with _ | _ | _ <;> dsimp only
        · rw [h, hs]
          simp
        · exact h
        · exact h
  exact H es timerInit (by decide)

/-- Once it is not NOT_CANCELED, a timer entry never changes again. -/
theorem timer_frozen (t : Timer) (es : List TimerEvent)
    (h : t.state ≠ TimerState.notCanceled) : timerRunFrom t es = t := by
  induction es with
  | nil => rfl
  | cons e es ih =>
    have hstep : timerStep t e = t := by
      cases e with
      | fire =>
        show timerFire t = t
        unfold timerFire
        rw [if_neg h]
      | cancel =>
        show (timer_cancel t).2 = t
        unfold timer_cancel
        rcases hs : t.state with _ | _ | _
        · exact absurd hs h
        · rfl
        · rfl
    show timerRunFrom (timerStep t e) es = t
    rw [hstep]
    exact ih

/-- **C5.** If `timer_cancel` returns OK then the timer's callback never
runs — not before the cancel (the state was still NOT_CANCELED) and not in
any continuation of the run; if the fire path already CAS'd the state to
FIRED, cancel returns ALREADY_FIRED and the callback has run exactly once
(and never runs again). -/
theorem C5_timer_cancel_protocol (es : List TimerEvent) :
    ((timer_cancel (timerRun es)).1 = CancelResult.ok →
      ∀ es2 : List TimerEvent,
        (timerRunFrom (timer_cancel (timerRun es)).2 es2).runs = 0)
    ∧ ((timer_cancel (timerRun es)).1 = CancelResult.alreadyFired →
      (timerRun es).runs = 1 ∧
      ∀ es2 : List TimerEvent,
        (timerRunFrom (timer_cancel (timerRun es)).2 es2).runs = 1) := by
  have hinv := timer_runs_inv es
  constructor
  · intro hok es2
    have hnc : (timerRun es).state = TimerState.notCanceled := by
      rcases hs : (timerRun es).state with _ | _ | _
      · rfl
      all_goals
        unfold timer_cancel at hok
        rw [hs] at hok
        cases hok
    have hstate : (timer_cancel (timerRun es)).2 =
        { timerRun es with state := TimerState.canceled } := by
      unfold timer_cancel
      rw [hnc]
    rw [hstate, timer_frozen _ es2 (by intro hcon; cases hcon)]
    rw [hnc] at hinv
    simpa using hinv
  · intro haf
    have hf : (timerRun es).state = TimerState.fired := by
      rcases hs : (timerRun es).state with _ | _ | _
      · unfold timer_cancel at haf
        rw [hs] at haf
        cases haf
      · unfold timer_cancel at haf
        rw [hs] at haf
        cases haf
      · rfl
    have hruns : (timerRun es).runs = 1 := by
      rw [hf] at hinv
      simpa using hinv
    refine ⟨hruns, fun es2 => ?_⟩
    have hstate : (timer_cancel (timerRun es)).2 = timerRun es := by
      unfold timer_cancel
      rw [hf]
    rw [hstate, timer_frozen _ es2 (by rw [hf]; intro hcon; cases hcon)]
    exact hruns

/-- Witness for `C5_timer_cancel_protocol`: cancelling a fresh timer
returns OK (callback count stays 0); cancelling after a fire returns
ALREADY_FIRED with exactly one callback run. -/
theorem C5_timer_cancel_protocol_witness :
    ((timer_cancel (timerRun [])).1 = CancelResult.ok ∧
     (timer_cancel (timerRun [TimerEvent.fire])).1 = CancelResult.alreadyFired) ∧
    (((timer_cancel (timerRun [])).1 = CancelResult.ok →
       ∀ es2 : List TimerEvent,
         (timerRunFrom (timer_cancel (timerRun [])).2 es2).runs = 0)
     ∧ ((timer_cancel (timerRun [])).1 = CancelResult.alreadyFired →
       (timerRun []).runs = 1 ∧
       ∀ es2 : List TimerEvent,
         (timerRunFrom (timer_cancel (timerRun [])).2 es2).runs = 1)) ∧
    (((timer_cancel (timerRun [TimerEvent.fire])).1 = CancelResult.ok →
       ∀ es2 : List TimerEvent,
         (timerRunFrom (timer_cancel (timerRun [TimerEvent.fire])).2 es2).runs = 0)
     ∧ ((timer_cancel (timerRun [TimerEvent.fire])).1 = CancelResult.alreadyFired →
       (timerRun [TimerEvent.fire]).runs = 1 ∧
       ∀ es2 : List TimerEvent,
         (timerRunFrom (timer_cancel (timerRun [TimerEvent.fire])).2 es2).runs = 1)) :=
  ⟨⟨by decide, by decide⟩, C5_timer_cancel_protocol [],
    C5_timer_cancel_protocol [TimerEvent.fire]⟩

/-- **C6.** In every interleaving of a producer (publish task, bump epoch,
wake a parked worker) with a worker that has published itself in the
parking array (publish, final rescan, sleep), the worker either observes
the task or a bumped epoch on its final rescan, or is woken by the
producer; in particular it never ends up asleep with the task published
and no wake delivered — no enqueued task's wakeup is lost. -/
theorem C6_no_lost_wakeup (tr : List PWStep)
    (htr : tr ∈ interleavings workerProg producerProg) :
    ((tr.foldl pwStep pwInit).observed = true ∨
      (tr.foldl pwStep pwInit).workerWoken = true)
    ∧ ¬((tr.foldl pwStep pwInit).asleep = true ∧
        (tr.foldl pwStep pwInit).workerWoken = false ∧
        (tr.foldl pwStep pwInit).queueTask = true) := by
  revert htr
  revert tr
  decide

/-- Witness for `C6_no_lost_wakeup`: the fully sequential interleaving in
which the worker parks and sleeps before the producer runs. -/
theorem C6_no_lost_wakeup_witness :
    (workerProg ++ producerProg) ∈ interleavings workerProg producerProg ∧
    ((((workerProg ++ producerProg).foldl pwStep pwInit).observed = true ∨
       ((workerProg ++ producerProg).foldl pwStep pwInit).workerWoken = true)
     ∧ ¬(((workerProg ++ producerProg).foldl pwStep pwInit).asleep = true ∧
         ((workerProg ++ producerProg).foldl pwStep pwInit).workerWoken = false ∧
         ((workerProg ++ producerProg).foldl pwStep pwInit).queueTask = true)) :=
  ⟨by decide, C6_no_lost_wakeup (workerProg ++ producerProg) (by decide)⟩

/-! ## Theorems: ListOfABAFreeId -/

namespace ListOfABAFreeId

theorem getD_set_ne {Id : Type} (l : List Id) (p r : Nat) (x d : Id) (h : r ≠ p) :
    (l.set p x).getD r d = l.getD r d := by
  simp [List.getD_eq_getElem?_getD, List.getElem?_set_ne (Ne.symm h)]

theorem getD_set_self {Id : Type} (l : List Id) (p : Nat) (x d : Id) (h : p < l.length) :
    (l.set p x).getD p d = x := by
  simp [List.getD_eq_getElem?_getD, List.getElem?_set_self h]

theorem mem_of_getD {Id : Type} {l : List Id} {r : Nat} {d v : Id}
    (h : r < l.length) (hv : l.getD r d = v) : v ∈ l := by
  rw [List.getD_eq_getElem?_getD, List.getElem?_eq_getElem h] at hv
  simp at hv
  rw [← hv]
  exact List.getElem_mem h

theorem exists_getD_of_mem {Id : Type} {l : List Id} {v : Id} (d : Id) (h : v ∈ l) :
    ∃ r, r < l.length ∧ l.getD r d = v := by
  obtain ⟨i, hi, hv⟩ := List.mem_iff_getElem.mp h
  refine ⟨i, hi, ?_⟩
  simp [List.getD_eq_getElem?_getD, List.getElem?_eq_getElem hi, hv]

theorem length_spliceAt {Id : Type} (c bs : Nat) (x : Id) (l : List Id)
    (hc : c ≤ l.length) : (spliceAt c bs x l).length = l.length + bs := by
  simp [spliceAt]
  omega

theorem getD_spliceAt_lt {Id : Type} {c bs : Nat} {x d : Id} {l : List Id} {r : Nat}
    (hc : c ≤ l.length) (h : r < c) :
    (spliceAt c bs x l).getD r d = l.getD r d := by
  unfold spliceAt
  rw [List.append_assoc, List.getD_eq_getElem?_getD,
    List.getElem?_append_left (by simp; omega), List.getElem?_take_of_lt h,
    ← List.getD_eq_getElem?_getD]

theorem getD_spliceAt_mid {Id : Type} {c bs : Nat} {x d : Id} {l : List Id} {r : Nat}
    (hc : c ≤ l.length) (h1 : c ≤ r) (h2 : r < c + bs) :
    (spliceAt c bs x l).getD r d = x := by
  unfold spliceAt
  rw [List.append_assoc, List.getD_eq_getElem?_getD,
    List.getElem?_append_right (by simp; omega)]
  have hlen : (List.take c l).length = c := by
    simp
    omega
  rw [hlen, List.getElem?_append_left (by simp; omega),
    List.getElem?_replicate_of_lt (by omega)]
  rfl

theorem getD_spliceAt_ge {Id : Type} {c bs : Nat} {x d : Id} {l : List Id} {r : Nat}
    (hc : c ≤ l.length) (h : c + bs ≤ r) :
    (spliceAt c bs x l).getD r d = l.getD (r - bs) d := by
  unfold spliceAt
  have hlen : (List.take c l).length = c := by
    simp
    omega
  rw [List.append_assoc, List.getD_eq_getElem?_getD,
    List.getElem?_append_right (by simp; omega), hlen,
    List.getElem?_append_right (by simp; omega)]
  simp only [List.length_replicate]
  rw [List.getElem?_drop, ← List.getD_eq_getElem?_getD]
  congr 1
  omega

theorem mod_chain (a k n : Nat) : ((a + k) % n + 1) % n = (a + (k + 1)) % n := by
  rw [Nat.mod_add_mod]
  congr 1

end ListOfABAFreeId

namespace ListOfABAFreeId

theorem mem_set_of_valid {Id : Type} [DecidableEq Id] {ex : Id → Bool} {idInit : Id}
    {l : List Id} {p : Nat} {x v : Id}
    (hp : p < l.length) (hfree : slotFree ex idInit (l.getD p idInit))
    (hvne : v ≠ idInit) (hvex : ex v = true) (hv : v ∈ l) : v ∈ l.set p x := by
  obtain ⟨r, hr, hrv⟩ := exists_getD_of_mem idInit hv
  by_cases hrp : r = p
  · subst hrp
    rw [hrv] at hfree
    rcases hfree with hfree | hfree
    · exact absurd hfree hvne
    · rw [hvex] at hfree
      cases hfree
  · refine mem_of_getD (l := l.set p x) (r := r) (d := idInit) (by simpa using hr) ?_
    rw [getD_set_ne l p r x idInit hrp]
    exact hrv

theorem applyList_mono {Id : Type} [DecidableEq Id] (ex : Id → Bool) (idInit : Id)
    (s s2 : ListOfABAFreeId Id)
    (h : ∀ v, v ≠ idInit → ex v = true → v ∈ s.items → v ∈ s2.items) :
    ∀ v, v ∈ applyList ex idInit s → v ∈ applyList ex idInit s2 := by
  intro v hv
  simp only [applyList, List.mem_filter, decide_eq_true_eq] at hv ⊢
  exact ⟨h v hv.2.1 hv.2.2 hv.1, hv.2⟩

/-- Two distinct offsets below the modulus land on distinct residues. -/
theorem mod_add_inj {n a i j : Nat} (hi : i < n) (hj : j < n)
    (h : (a + i) % n = (a + j) % n) : i = j := by
  have hij : i ≡ j [MOD n] := Nat.ModEq.add_left_cancel (Nat.ModEq.refl a) h
  exact hij.eq_of_lt_of_lt hi hj

/-- Inserting fresh slots never removes a stored id. -/
theorem mem_spliceAt {Id : Type} {c bs : Nat} {x v : Id} {l : List Id}
    (h : v ∈ l) : v ∈ spliceAt c bs x l := by
  have h2 : v ∈ l.take c ++ l.drop c := by
    rw [List.take_append_drop]
    exact h
  unfold spliceAt
  rcases List.mem_append.mp h2 with h3 | h3
  · exact List.mem_append.mpr (Or.inl (List.mem_append.mpr (Or.inl h3)))
  · exact List.mem_append.mpr (Or.inr h3)

/-- Overwriting a slot that currently holds `idInit` keeps every other
value in the list. -/
theorem mem_set_of_init {Id : Type} {idInit : Id} {l : List Id} {p : Nat} {x : Id}
    (hval : l.getD p idInit = idInit)
    (v : Id) (hvne : v ≠ idInit) (hv : v ∈ l) : v ∈ l.set p x := by
  obtain ⟨r, hr, hrv⟩ := exists_getD_of_mem idInit hv
  by_cases hrp : r = p
  · subst hrp
    rw [hrv] at hval
    exact absurd hval hvne
  · refine mem_of_getD (l := l.set p x) (r := r) (d := idInit) (by simpa using hr) ?_
    rw [getD_set_ne _ _ _ _ _ hrp]
    exact hrv

/-- Overwriting a slot whose value also sits at another position keeps
every value in the list. -/
theorem mem_set_of_dup {Id : Type} {l : List Id} {p p2 : Nat} {x d : Id}
    (hne : p2 ≠ p) (hp2 : p2 < l.length) (hdup : l.getD p2 d = l.getD p d)
    (v : Id) (hv : v ∈ l) : v ∈ l.set p x := by
  obtain ⟨r, hr, hrv⟩ := exists_getD_of_mem d hv
  by_cases hrp : r = p
  · subst hrp
    refine mem_of_getD (l := l.set r x) (r := p2) (d := d) (by simpa using hp2) ?_
    rw [getD_set_ne _ _ _ _ _ hne, hdup]
    exact hrv
  · refine mem_of_getD (l := l.set p x) (r := r) (d := d) (by simpa using hr) ?_
    rw [getD_set_ne _ _ _ _ _ hrp]
    exact hrv

/-- The scatter phase never discards a stored identifier other than
`idInit`: every slot it overwrites either holds `idInit` at that moment
(the inserted region, and the pointer slots the adjacency hypothesis
`hq2adj` accounts for) or has just been duplicated at another position. -/
theorem mem_scatter_of_valid {Id : Type} (idInit id : Id) (l1 : List Id)
    (bs c4 q1 q2 q3 : Nat)
    (hbs : 5 ≤ bs)
    (hlen : c4 + bs ≤ l1.length)
    (hinit : ∀ r, c4 ≤ r → r < c4 + bs → l1.getD r idInit = idInit)
    (hq2c4 : q2 ≠ c4)
    (hq12 : q1 ≠ q2)
    (hq2len : q2 < l1.length)
    (hq2adj : q2 = c4 + 2 ∨ q2 = c4 + 3 → c4 < q1 ∧ q1 < c4 + bs)
    (v : Id) (hvne : v ≠ idInit) (hv : v ∈ l1) :
    v ∈ scatter idInit id c4 q1 q2 q3 (c4 + 2) (c4 + 3) l1 := by
  set l2 := l1.set c4 (l1.getD q2 idInit) with hl2
  set l3 := l2.set q2 (l2.getD q1 idInit) with hl3
  set l4 := l3.set q1 idInit with hl4
  set l5 := l4.set (c4 + 2) (l4.getD q3 idInit) with hl5
  set l6 := l5.set q3 idInit with hl6
  have hscat : scatter idInit id c4 q1 q2 q3 (c4 + 2) (c4 + 3) l1 =
      l6.set (c4 + 3) id := by
    rw [hl6, hl5, hl4, hl3, hl2]
    rfl
  have hlen2 : l2.length = l1.length := by
    rw [hl2]
    simp
  have hlen3 : l3.length = l1.length := by
    rw [hl3]
    simp [hlen2]
  have hlen4 : l4.length = l1.length := by
    rw [hl4]
    simp [hlen3]
  have hlen5 : l5.length = l1.length := by
    rw [hl5]
    simp [hlen4]
  have h2c4 : l2.getD c4 idInit = l1.getD q2 idInit := by
    rw [hl2]
    exact getD_set_self _ _ _ _ (by omega)
  have h2q2 : l2.getD q2 idInit = l1.getD q2 idInit := by
    rw [hl2]
    exact getD_set_ne _ _ _ _ _ hq2c4
  have h3q2 : l3.getD q2 idInit = l2.getD q1 idInit := by
    rw [hl3]
    exact getD_set_self _ _ _ _ (by omega)
  have h3q1 : l3.getD q1 idInit = l2.getD q1 idInit := by
    rw [hl3]
    exact getD_set_ne _ _ _ _ _ hq12
  have hstep4 : l4.getD (c4 + 2) idInit = idInit := by
    by_cases h1 : c4 + 2 = q1
    · rw [hl4, h1]
      exact getD_set_self _ _ _ _ (by omega)
    · rw [hl4, getD_set_ne _ _ _ _ _ h1]
      by_cases h2 : c4 + 2 = q2
      · rw [h2, h3q2]
        obtain ⟨hq1lo, hq1hi⟩ := hq2adj (Or.inl h2.symm)
        rw [hl2, getD_set_ne _ _ _ _ _ (by omega)]
        exact hinit q1 (by omega) (by omega)
      · rw [hl3, getD_set_ne _ _ _ _ _ h2, hl2, getD_set_ne _ _ _ _ _ (by omega)]
        exact hinit (c4 + 2) (by omega) (by omega)
  have h5c42 : l5.getD (c4 + 2) idInit = l4.getD q3 idInit := by
    rw [hl5]
    exact getD_set_self _ _ _ _ (by omega)
  have hstep6 : l6.getD (c4 + 3) idInit = idInit := by
    by_cases h3 : c4 + 3 = q3
    · rw [hl6, h3]
      exact getD_set_self _ _ _ _ (by omega)
    · rw [hl6, getD_set_ne _ _ _ _ _ h3, hl5, getD_set_ne _ _ _ _ _ (by omega)]
      by_cases h1 : c4 + 3 = q1
      · rw [hl4, h1]
        exact getD_set_self _ _ _ _ (by omega)
      · rw [hl4, getD_set_ne _ _ _ _ _ h1]
        by_cases h2 : c4 + 3 = q2
        · rw [h2, h3q2]
          obtain ⟨hq1lo, hq1hi⟩ := hq2adj (Or.inr h2.symm)
          rw [hl2, getD_set_ne _ _ _ _ _ (by omega)]
          exact hinit q1 (by omega) (by omega)
        · rw [hl3, getD_set_ne _ _ _ _ _ h2, hl2, getD_set_ne _ _ _ _ _ (by omega)]
          exact hinit (c4 + 3) (by omega) (by omega)
  have m2 : v ∈ l2 := by
    rw [hl2]
    exact mem_set_of_init (hinit c4 (Nat.le_refl c4) (by omega)) v hvne hv
  have m3 : v ∈ l3 := by
    rw [hl3]
    refine mem_set_of_dup (d := idInit) (Ne.symm hq2c4) (by omega) ?_ v m2
    rw [h2c4, h2q2]
  have m4 : v ∈ l4 := by
    rw [hl4]
    refine mem_set_of_dup (d := idInit) (Ne.symm hq12) (by omega) ?_ v m3
    rw [h3q2, h3q1]
  have m5 : v ∈ l5 := by
    rw [hl5]
    exact mem_set_of_init hstep4 v hvne m4
  have m6 : v ∈ l6 := by
    by_cases h3 : q3 = c4 + 2
    · rw [hl6]
      refine mem_set_of_init ?_ v hvne m5
      rw [h3, h5c42, h3]
      exact hstep4
    · rw [hl6]
      refine mem_set_of_dup (d := idInit) (fun hh => h3 hh.symm) (by omega) ?_ v m5
      rw [h5c42, hl5, getD_set_ne _ _ _ _ _ h3]
  rw [hscat]
  exact mem_set_of_init hstep6 v hvne m6

/-- `add` behaviour when some probe hits a free slot. -/
theorem add_post_hit {Id : Type} [DecidableEq Id] {ex : Id → Bool} {idInit : Id}
    {bs maxEntries : Nat} {allocOk : Bool} {s : ListOfABAFreeId Id} {id : Id}
    {p c : Nat}
    (hp : p < s.items.length)
    (hfree : slotFree ex idInit (s.items.getD p idInit))
    (hnpo : ¬ probedOccupied ex idInit s)
    (he : add ex idInit bs maxEntries allocOk s id =
      (0, ⟨s.items.set p id, c, s._nblock⟩)) :
    addPost ex idInit bs maxEntries allocOk s id := by
  unfold addPost
  rw [he]
  have hmem : ∀ v : Id, v ≠ idInit → ex v = true → v ∈ s.items → v ∈ s.items.set p id :=
    fun v hvne hvex hv => mem_set_of_valid hp hfree hvne hvex hv
  exact ⟨Or.inl rfl,
    ⟨fun h => absurd h (by simp), fun h => absurd h.1 hnpo⟩,
    fun h => absurd h (by simp),
    ⟨fun h => absurd h (by simp), fun h => absurd h.1 hnpo⟩,
    fun h => absurd h (by simp),
    hmem,
    fun v hv => applyList_mono ex idInit s _ hmem v hv⟩

/-- `add` behaviour in the EAGAIN branch. -/
theorem add_post_again {Id : Type} [DecidableEq Id] {ex : Id → Bool} {idInit : Id}
    {bs maxEntries : Nat} {allocOk : Bool} {s : ListOfABAFreeId Id} {id : Id}
    {c : Nat}
    (hpo : probedOccupied ex idInit s)
    (hcap : s._nblock * bs > maxEntries)
    (he : add ex idInit bs maxEntries allocOk s id = (11, ⟨s.items, c, s._nblock⟩)) :
    addPost ex idInit bs maxEntries allocOk s id := by
  unfold addPost
  rw [he]
  exact ⟨Or.inr (Or.inl rfl),
    ⟨fun _ => ⟨hpo, hcap⟩, fun _ => rfl⟩,
    fun _ => rfl,
    ⟨fun h => absurd h (by simp), fun h => absurd hcap h.2.1⟩,
    fun _ => rfl,
    fun v _ _ hv => hv,
    fun v hv => hv⟩

/-- `add` behaviour in the ENOMEM branch. -/
theorem add_post_nomem {Id : Type} [DecidableEq Id] {ex : Id → Bool} {idInit : Id}
    {bs maxEntries : Nat} {allocOk : Bool} {s : ListOfABAFreeId Id} {id : Id}
    {c : Nat}
    (hpo : probedOccupied ex idInit s)
    (hcap : ¬ s._nblock * bs > maxEntries)
    (ha : allocOk = false)
    (he : add ex idInit bs maxEntries allocOk s id = (12, ⟨s.items, c, s._nblock⟩)) :
    addPost ex idInit bs maxEntries allocOk s id := by
  unfold addPost
  rw [he]
  exact ⟨Or.inr (Or.inr rfl),
    ⟨fun h => absurd h (by simp), fun h => absurd h.2 hcap⟩,
    fun _ => rfl,
    ⟨fun _ => ⟨hpo, hcap, ha⟩, fun _ => rfl⟩,
    fun _ => rfl,
    fun v _ _ hv => hv,
    fun v hv => hv⟩

/-- `add` behaviour in the block-splitting branch. -/
theorem add_post_split {Id : Type} [DecidableEq Id] {ex : Id → Bool} {idInit : Id}
    {bs maxEntries : Nat} {allocOk : Bool} {s : ListOfABAFreeId Id} {id : Id}
    {p1 p2 c4 t c q3 : Nat}
    (hbs : 5 ≤ bs)
    (hp2 : p2 < s.items.length) (hc4 : c4 < s.items.length)
    (ht1 : c4 < t)
    (h12 : p1 ≠ p2) (h2c : p2 ≠ c4)
    (hadj : p2 = p1 + 1 ∨ p2 = 0)
    (hpo : probedOccupied ex idInit s)
    (hcap : ¬ s._nblock * bs > maxEntries)
    (ha : allocOk = true)
    (he : add ex idInit bs maxEntries allocOk s id =
      (0, ⟨scatter idInit id c4
            (if t ≤ p1 then p1 + bs else p1)
            (if t ≤ p2 then p2 + bs else p2)
            q3
            (c4 + 2) (c4 + 3) (spliceAt c4 bs idInit s.items), c, s._nblock + 1⟩)) :
    addPost ex idInit bs maxEntries allocOk s id := by
  unfold addPost
  rw [he]
  have hsplen : (spliceAt c4 bs idInit s.items).length = s.items.length + bs :=
    length_spliceAt _ _ _ _ (le_of_lt hc4)
  have hmem : ∀ v : Id, v ≠ idInit → ex v = true → v ∈ s.items →
      v ∈ scatter idInit id c4 (if t ≤ p1 then p1 + bs else p1)
          (if t ≤ p2 then p2 + bs else p2) q3 (c4 + 2) (c4 + 3)
          (spliceAt c4 bs idInit s.items) := by
    intro v hvne hvex hv
    refine mem_scatter_of_valid idInit id (spliceAt c4 bs idInit s.items)
      bs c4 _ _ q3 hbs ?_ ?_ ?_ ?_ ?_ ?_ v hvne (mem_spliceAt hv)
    · rw [hsplen]
      omega
    · intro r h1 h2
      exact getD_spliceAt_mid (le_of_lt hc4) h1 h2
    · split_ifs <;> omega
    · split_ifs <;> omega
    · rw [hsplen]
      split_ifs <;> omega
    · split_ifs <;> omega
  exact ⟨Or.inl rfl,
    ⟨fun h => absurd h (by simp), fun h => absurd h.2 hcap⟩,
    fun h => absurd h (by simp),
    ⟨fun h => absurd h (by simp), fun h => by simp [ha] at h⟩,
    fun h => absurd h (by simp),
    hmem,
    fun v hv => applyList_mono ex idInit s _ hmem v hv⟩

end ListOfABAFreeId

open ListOfABAFreeId in
/-- **C10.** `ListOfABAFreeId::add` returns EAGAIN (11) exactly when the
four probed positions are all occupied by still-valid identifiers and the
capacity bound `_nblock * BLOCK_SIZE > MAX_ENTRIES` holds (leaving the
stored slots unchanged), returns ENOMEM (12) exactly when the probes are
occupied, the bound does not hold and block allocation fails (slots again
unchanged), and returns 0 otherwise; after any `add`, every previously
stored identifier that is not `ID_INIT` and still exists remains in the
list — the block-splitting rearrangement never discards a valid id — so
`apply` still visits it. -/
theorem C10_abafree_add {Id : Type} [DecidableEq Id] (ex : Id → Bool) (idInit : Id)
    (bs maxEntries : Nat) (allocOk : Bool) (s : ListOfABAFreeId Id) (id : Id)
    (hwf : s.wf bs) (hbs : 5 ≤ bs) :
    addPost ex idInit bs maxEntries allocOk s id := by
  obtain ⟨hlen, hcur, hnb⟩ := hwf
  have hbsle : bs ≤ s._nblock * bs := by
    have := Nat.mul_le_mul hnb (Nat.le_refl bs)
    simpa using this
  have hn5 : 5 ≤ s.items.length := by omega
  have hn0 : 0 < s.items.length := by omega
  have hp1 : (s.cur + 1) % s.items.length < s.items.length := Nat.mod_lt _ hn0
  have hp2e : ((s.cur + 1) % s.items.length + 1) % s.items.length =
      (s.cur + 2) % s.items.length := mod_chain s.cur 1 s.items.length
  have hp2 : (s.cur + 2) % s.items.length < s.items.length := Nat.mod_lt _ hn0
  have hp3e : ((s.cur + 2) % s.items.length + 1) % s.items.length =
      (s.cur + 3) % s.items.length := mod_chain s.cur 2 s.items.length
  have hp3 : (s.cur + 3) % s.items.length < s.items.length := Nat.mod_lt _ hn0
  have hp4e : ((s.cur + 3) % s.items.length + 1) % s.items.length =
      (s.cur + 4) % s.items.length := mod_chain s.cur 3 s.items.length
  have hp4 : (s.cur + 4) % s.items.length < s.items.length := Nat.mod_lt _ hn0
  by_cases hf0 : slotFree ex idInit (s.items.getD s.cur idInit)
  · have he : add ex idInit bs maxEntries allocOk s id =
        (0, ⟨s.items.set s.cur id, (s.cur + 1) % s.items.length, s._nblock⟩) := by
      unfold add
      dsimp only
      rw [if_pos hf0]
    exact add_post_hit hcur hf0 (fun hpo => hpo.1 hf0) he
  · by_cases hf1 : slotFree ex idInit (s.items.getD ((s.cur + 1) % s.items.length) idInit)
    · have he : add ex idInit bs maxEntries allocOk s id =
          (0, ⟨s.items.set ((s.cur + 1) % s.items.length) id,
            (s.cur + 2) % s.items.length, s._nblock⟩) := by
        unfold add
        dsimp only
        rw [hp2e]
        rw [if_neg hf0, if_pos hf1]
      exact add_post_hit hp1 hf1 (fun hpo => hpo.2.1 hf1) he
    · by_cases hf2 : slotFree ex idInit (s.items.getD ((s.cur + 2) % s.items.length) idInit)
      · have he : add ex idInit bs maxEntries allocOk s id =
            (0, ⟨s.items.set ((s.cur + 2) % s.items.length) id,
              (s.cur + 3) % s.items.length, s._nblock⟩) := by
          unfold add
          dsimp only
          rw [hp2e, hp3e]
          rw [if_neg hf0, if_neg hf1, if_pos hf2]
        exact add_post_hit hp2 hf2 (fun hpo => hpo.2.2.1 hf2) he
      · by_cases hf3 : slotFree ex idInit
            (s.items.getD ((s.cur + 3) % s.items.length) idInit)
        · have he : add ex idInit bs maxEntries allocOk s id =
              (0, ⟨s.items.set ((s.cur + 3) % s.items.length) id,
                (s.cur + 4) % s.items.length, s._nblock⟩) := by
            unfold add
            dsimp only
            rw [hp2e, hp3e, hp4e]
            rw [if_neg hf0, if_neg hf1, if_neg hf2, if_pos hf3]
          exact add_post_hit hp3 hf3 (fun hpo => hpo.2.2.2 hf3) he
        · have hpo : probedOccupied ex idInit s := ⟨hf0, hf1, hf2, hf3⟩
          by_cases hcap : s._nblock * bs > maxEntries
          · have he : add ex idInit bs maxEntries allocOk s id =
                (11, ⟨s.items, (s.cur + 4) % s.items.length, s._nblock⟩) := by
              unfold add
              dsimp only
              rw [hp2e, hp3e, hp4e]
              rw [if_neg hf0, if_neg hf1, if_neg hf2, if_neg hf3, if_pos hcap]
            exact add_post_again hpo hcap he
          · by_cases halloc : allocOk = false
            · have he : add ex idInit bs maxEntries allocOk s id =
                  (12, ⟨s.items, (s.cur + 4) % s.items.length, s._nblock⟩) := by
                unfold add
                dsimp only
                rw [hp2e, hp3e, hp4e]
                rw [if_neg hf0, if_neg hf1, if_neg hf2, if_neg hf3, if_neg hcap,
                  if_pos halloc]
              exact add_post_nomem hpo hcap halloc he
            · have ha : allocOk = true := by
                cases hb : allocOk
                · exact absurd hb halloc
                · rfl
              have ht1 : (s.cur + 4) % s.items.length <
                  bs * ((s.cur + 4) % s.items.length / bs) + bs := by
                have hdm := Nat.div_add_mod ((s.cur + 4) % s.items.length) bs
                have hm : (s.cur + 4) % s.items.length % bs < bs :=
                  Nat.mod_lt _ (by omega)
                omega
              have hc5e : ((s.cur + 4) % s.items.length + 1) % (s.items.length + bs) =
                  (s.cur + 4) % s.items.length + 1 := Nat.mod_eq_of_lt (by omega)
              have hc6e : ((s.cur + 4) % s.items.length + 1 + 1) % (s.items.length + bs) =
                  (s.cur + 4) % s.items.length + 2 := by
                rw [Nat.mod_eq_of_lt (by omega)]
              have hc7e : ((s.cur + 4) % s.items.length + 2 + 1) % (s.items.length + bs) =
                  (s.cur + 4) % s.items.length + 3 := by
                rw [Nat.mod_eq_of_lt (by omega)]
              have hd12 : (s.cur + 1) % s.items.length ≠ (s.cur + 2) % s.items.length :=
                fun h => by
                  have := mod_add_inj (by omega) (by omega) h
                  omega
              have hd24 : (s.cur + 2) % s.items.length ≠ (s.cur + 4) % s.items.length :=
                fun h => by
                  have := mod_add_inj (by omega) (by omega) h
                  omega
              have hadj : (s.cur + 2) % s.items.length =
                  (s.cur + 1) % s.items.length + 1 ∨ (s.cur + 2) % s.items.length = 0 := by
                rcases Nat.lt_or_ge ((s.cur + 1) % s.items.length + 1)
                    s.items.length with hlt | hge
                · left
                  rw [← hp2e]
                  exact Nat.mod_eq_of_lt hlt
                · right
                  rw [← hp2e]
                  have hn : (s.cur + 1) % s.items.length + 1 = s.items.length := by omega
                  rw [hn, Nat.mod_self]
              have he : add ex idInit bs maxEntries allocOk s id =
                  (0, ⟨scatter idInit id ((s.cur + 4) % s.items.length)
                    (if bs * ((s.cur + 4) % s.items.length / bs) + bs ≤
                        (s.cur + 1) % s.items.length
                      then (s.cur + 1) % s.items.length + bs
                      else (s.cur + 1) % s.items.length)
                    (if bs * ((s.cur + 4) % s.items.length / bs) + bs ≤
                        (s.cur + 2) % s.items.length
                      then (s.cur + 2) % s.items.length + bs
                      else (s.cur + 2) % s.items.length)
                    (if bs * ((s.cur + 4) % s.items.length / bs) + bs ≤
                        (s.cur + 3) % s.items.length
                      then (s.cur + 3) % s.items.length + bs
                      else (s.cur + 3) % s.items.length)
                    ((s.cur + 4) % s.items.length + 2)
                    ((s.cur + 4) % s.items.length + 3)
                    (spliceAt ((s.cur + 4) % s.items.length) bs idInit s.items),
                  ((s.cur + 4) % s.items.length + 3 + 1) % (s.items.length + bs),
                  s._nblock + 1⟩) := by
                unfold add
                dsimp only
                rw [hp2e, hp3e, hp4e]
                rw [if_neg hf0, if_neg hf1, if_neg hf2, if_neg hf3, if_neg hcap,
                  if_neg (show ¬ allocOk = false by simp [ha])]
                rw [hc5e, hc6e, hc7e]
              exact add_post_split hbs hp2 hp4 ht1 hd12 hd24 hadj hpo hcap ha he

/-- Witness for `C10_abafree_add`: a fresh one-block list of block size 5
with all slots `ID_INIT`. -/
theorem C10_abafree_add_witness :
    ListOfABAFreeId.wf 5 (⟨List.replicate 5 (0 : Nat), 0, 1⟩ : ListOfABAFreeId Nat) ∧
    5 ≤ 5 ∧
    ListOfABAFreeId.addPost (fun _ => true) 0 5 100 true
      (⟨List.replicate 5 (0 : Nat), 0, 1⟩ : ListOfABAFreeId Nat) 7 :=
  ⟨⟨by decide, by decide, by decide⟩, by decide,
   C10_abafree_add (fun _ => true) 0 5 100 true
     (⟨List.replicate 5 (0 : Nat), 0, 1⟩ : ListOfABAFreeId Nat) 7
     ⟨by decide, by decide, by decide⟩ (by decide)⟩

/-! ## Theorems: bounded_queue -/

namespace bounded_queue

theorem _mod_eq_mod (off cap : Nat) (h : 0 < cap) : _mod off cap = off % cap := by
  induction off using Nat.strong_induction_on with
  | _ off ih =>
    rw [_mod]
    by_cases hle : cap ≤ off
    · rw [dif_pos ⟨h, hle⟩, ih (off - cap) (by omega)]
      conv_rhs => rw [← Nat.sub_add_cancel hle, Nat.add_mod_right]
    · rw [dif_neg (by omega)]
      exact (Nat.mod_eq_of_lt (by omega)).symm

/-- Two distinct offsets below the capacity land on distinct cells. -/
theorem mod_shift_inj {c s i j : Nat} (hi : i < c) (hj : j < c)
    (h : (s + i) % c = (s + j) % c) : i = j := by
  have hij : i ≡ j [MOD c] := Nat.ModEq.add_left_cancel (Nat.ModEq.refl s) h
  exact hij.eq_of_lt_of_lt hi hj

theorem toList_push {α : Type} (q : bounded_queue α) (x : α)
    (hcnt : q._count < q._cap) :
    toList (push q x).2 = toList q ++ [x] := by
  have hcap : 0 < q._cap := by omega
  simp only [push, if_pos hcnt, toList, List.range_succ, List.map_append, List.map_cons]
  congr 1
  · apply List.map_congr_left
    intro i hi
    have hi' : i < q._count := List.mem_range.mp hi
    have hne : _mod (q._start + i) q._cap ≠ _mod (q._start + q._count) q._cap := by
      rw [_mod_eq_mod _ _ hcap, _mod_eq_mod _ _ hcap]
      intro heq
      exact absurd (mod_shift_inj (by omega) hcnt heq) (by omega)
    simp [hne]

theorem toList_pop {α : Type} [Inhabited α] (q : bounded_queue α)
    (hcnt : q._count ≠ 0) (hstart : q._start < q._cap) :
    (pop q).1 = some ((toList q).headI) ∧ toList (pop q).2 = (toList q).tail := by
  have hcap : 0 < q._cap := by omega
  have hhead : (toList q).headI = q._items q._start := by
    unfold toList
    obtain ⟨n, hn⟩ : ∃ n, q._count = n + 1 := ⟨q._count - 1, by omega⟩
    rw [hn, List.range_succ_eq_map]
    simp [_mod_eq_mod _ _ hcap, Nat.mod_eq_of_lt hstart]
  constructor
  · simp [pop, if_pos hcnt, hhead]
  · unfold pop toList
    rw [if_pos hcnt]
    obtain ⟨n, hn⟩ : ∃ n, q._count = n + 1 := ⟨q._count - 1, by omega⟩
    simp only [hn, Nat.add_sub_cancel, List.range_succ_eq_map, List.map_cons, List.tail_cons,
      List.map_map]
    apply List.map_congr_left
    intro i _
    simp only [Function.comp]
    rw [_mod_eq_mod _ _ hcap, _mod_eq_mod _ _ hcap, _mod_eq_mod _ _ hcap, Nat.mod_add_mod]
    congr 1
    congr 1
    omega

theorem toList_pop_bottom {α : Type} [Inhabited α] (q : bounded_queue α)
    (hcnt : q._count ≠ 0) :
    (pop_bottom q).1 = some ((toList q).getLastI) ∧
      toList (pop_bottom q).2 = (toList q).dropLast := by
  have hlast : (toList q).getLastI = q._items (_mod (q._start + (q._count - 1)) q._cap) := by
    unfold toList
    obtain ⟨n, hn⟩ : ∃ n, q._count = n + 1 := ⟨q._count - 1, by omega⟩
    rw [hn, List.range_succ]
    simp [List.getLastI_eq_getLast?, List.getLast?_concat]
  constructor
  · simp [pop_bottom, if_pos hcnt, hlast]
  · unfold pop_bottom toList
    rw [if_pos hcnt]
    obtain ⟨n, hn⟩ : ∃ n, q._count = n + 1 := ⟨q._count - 1, by omega⟩
    simp [hn, List.range_succ]

theorem push_fields {α : Type} (q : bounded_queue α) (x : α) :
    (push q x).2._cap = q._cap ∧ (push q x).2._start = q._start ∧
      (push q x).2._count = if q._count < q._cap then q._count + 1 else q._count := by
  unfold push
  split <;> simp_all

theorem toList_pushAll {α : Type} (xs : List α) (q : bounded_queue α)
    (hlen : q._count + xs.length ≤ q._cap) :
    toList (pushAll q xs) = toList q ++ xs ∧
      (pushAll q xs)._cap = q._cap ∧ (pushAll q xs)._start = q._start ∧
      (pushAll q xs)._count = q._count + xs.length := by
  induction xs generalizing q with
  | nil => simp [pushAll]
  | cons x xs ih =>
    have hcnt : q._count < q._cap := by
      simp only [List.length_cons] at hlen
      omega
    have hf := push_fields q x
    have hstep : pushAll q (x :: xs) = pushAll (push q x).2 xs := by
      simp [pushAll]
    rw [hstep]
    have ih' := ih (push q x).2
      (by rw [hf.2.2, if_pos hcnt, hf.1]; simp only [List.length_cons] at hlen; omega)
    refine ⟨?_, ?_, ?_, ?_⟩
    · rw [ih'.1, toList_push q x hcnt]
      simp
    · rw [ih'.2.1, hf.1]
    · rw [ih'.2.2.1, hf.2.1]
    · rw [ih'.2.2.2, hf.2.2, if_pos hcnt]
      simp only [List.length_cons]
      omega

theorem popN_eq_toList {α : Type} [Inhabited α] (n : Nat) (q : bounded_queue α)
    (hn : q._count = n) (hcnt : q._count ≤ q._cap) (hstart : q._start < q._cap) :
    popN n q = toList q := by
  induction n generalizing q with
  | zero =>
    unfold popN toList
    rw [hn]
    simp
  | succ n ih =>
    have hne : q._count ≠ 0 := by omega
    have hp := toList_pop q hne hstart
    have htl : (toList q).length = q._count := by simp [toList]
    rcases hpop : pop q with ⟨o, q'⟩
    rw [hpop] at hp
    simp only at hp
    have ho : o = some ((toList q).headI) := hp.1
    subst ho
    have hq' : q' = (pop q).2 := by rw [hpop]
    have hfields : q'._count = q._count - 1 ∧ q'._start = (q._start + 1) % q._cap ∧
        q'._cap = q._cap := by
      rw [hq']
      unfold pop
      rw [if_pos hne]
      refine ⟨rfl, ?_, rfl⟩
      exact _mod_eq_mod _ _ (by omega)
    unfold popN
    rw [hpop]
    show (toList q).headI :: popN n q' = toList q
    rw [ih q' (by omega) (by omega)
      (by rw [hfields.2.1, hfields.2.2]; exact Nat.mod_lt _ (by omega))]
    rw [hp.2]
    have hnil : toList q ≠ [] := by
      intro hnil
      rw [hnil] at htl
      simp at htl
      omega
    obtain ⟨h, t, hht⟩ := List.exists_cons_of_ne_nil hnil
    rw [hht]
    simp [List.headI]

end bounded_queue

open bounded_queue in
/-- **C7.** For every worker's ready ring, pushing a task appends it at the
local tail (the bottom side of the ring) and succeeds exactly when the ring
holds fewer than capacity items; when the ring is full the push into the
ring fails leaving the ring unchanged, and `push_local` instead routes the
task to the group overflow deque. -/
theorem C7_ready_ring_push {α : Type} (q : bounded_queue α) (ov : List α) (x : α)
    (hwf : q._count ≤ q._cap) :
    ((push q x).1 = true ↔ size q < capacity q)
    ∧ ((push q x).1 = false → (push q x).2 = q)
    ∧ (full q = false →
        push_local ⟨q, ov⟩ x = ⟨(push q x).2, ov⟩
        ∧ toList (push q x).2 = toList q ++ [x])
    ∧ (full q = true → push_local ⟨q, ov⟩ x = ⟨q, ov ++ [x]⟩) := by
  refine ⟨?_, ?_, ?_, ?_⟩
  · unfold push size capacity
    split <;> simp_all
  · unfold push
    split <;> simp
  · intro hfull
    have hlt : q._count < q._cap := by
      simp only [full, beq_eq_false_iff_ne, ne_eq] at hfull
      omega
    have hp1 : (push q x).1 = true := by
      unfold push
      rw [if_pos hlt]
    refine ⟨?_, toList_push q x hlt⟩
    unfold push_local
    simp only [hp1, if_pos]
  · intro hfull
    have hge : ¬ q._count < q._cap := by
      simp only [full, beq_iff_eq] at hfull
      omega
    have hp1 : (push q x).1 = false := by
      unfold push
      rw [if_neg hge]
    have hp2 : (push q x).2 = q := by
      unfold push
      rw [if_neg hge]
    unfold push_local
    simp [hp1, hp2]

open bounded_queue in
/-- Witness for `C7_ready_ring_push` at a concrete input. -/
theorem C7_ready_ring_push_witness :
    sampleRing._count ≤ sampleRing._cap ∧
    (((push sampleRing 42).1 = true ↔ size sampleRing < capacity sampleRing)
     ∧ ((push sampleRing 42).1 = false → (push sampleRing 42).2 = sampleRing)
     ∧ (full sampleRing = false →
         push_local ⟨sampleRing, []⟩ 42 = ⟨(push sampleRing 42).2, []⟩
         ∧ toList (push sampleRing 42).2 = toList sampleRing ++ [42])
     ∧ (full sampleRing = true → push_local ⟨sampleRing, []⟩ 42 = ⟨sampleRing, [] ++ [42]⟩)) :=
  ⟨by decide, C7_ready_ring_push sampleRing [] 42 (by decide)⟩

open bounded_queue in
/-- **C9.** For every `bounded_queue`: `pop` (and `pop_bottom`) on an empty
queue returns false and leaves the queue unchanged; after pushing items
`x1..xk` (`k ≤ capacity`) into an empty queue with `push`, `k` successive
`pop` calls return exactly `x1..xk` in that order (top-side pop is FIFO
with respect to bottom-side push), while `pop_bottom` returns the most
recently pushed item (the LIFO end). -/
theorem C9_bounded_queue_fifo {α : Type} [Inhabited α] (q0 : bounded_queue α) (xs : List α)
    (hempty : q0._count = 0) (hstart : q0._start < q0._cap) (hlen : xs.length ≤ q0._cap) :
    (pop q0 = (none, q0) ∧ pop_bottom q0 = (none, q0))
    ∧ popN xs.length (pushAll q0 xs) = xs
    ∧ (xs ≠ [] → (pop_bottom (pushAll q0 xs)).1 = some xs.getLastI) := by
  have hpa := toList_pushAll xs q0 (by omega)
  have htl0 : toList q0 = [] := by
    unfold toList
    rw [hempty]
    simp
  have htl : toList (pushAll q0 xs) = xs := by
    rw [hpa.1, htl0]
    simp
  refine ⟨⟨?_, ?_⟩, ?_, ?_⟩
  · unfold pop
    rw [if_neg (by omega)]
  · unfold pop_bottom
    rw [if_neg (by omega)]
  · rw [popN_eq_toList xs.length (pushAll q0 xs) (by omega) (by omega)
      (by rw [hpa.2.2.1, hpa.2.1]; omega)]
    exact htl
  · intro hne
    have hcnt : (pushAll q0 xs)._count ≠ 0 := by
      have : xs.length ≠ 0 := by
        intro h0
        exact hne (List.eq_nil_of_length_eq_zero h0)
      omega
    have := (toList_pop_bottom (pushAll q0 xs) hcnt).1
    rw [this, htl]

open bounded_queue in
/-- Witness for `C9_bounded_queue_fifo` at a concrete input. -/
theorem C9_bounded_queue_fifo_witness :
    (sampleRing3._count = 0 ∧ sampleRing3._start < sampleRing3._cap ∧
      [10, 20, 30].length ≤ sampleRing3._cap) ∧
    ((pop sampleRing3 = (none, sampleRing3) ∧ pop_bottom sampleRing3 = (none, sampleRing3))
     ∧ popN [10, 20, 30].length (pushAll sampleRing3 [10, 20, 30]) = [10, 20, 30]
     ∧ ([10, 20, 30] ≠ [] →
        (pop_bottom (pushAll sampleRing3 [10, 20, 30])).1 = some ([10, 20, 30] : List Nat).getLastI)) :=
  ⟨⟨by decide, by decide, by decide⟩,
   C9_bounded_queue_fifo sampleRing3 [10, 20, 30] (by decide) (by decide) (by decide)⟩

end Melon
